import Mathlib

/-!
Shallow embedding of the `baffles` Bloom-filter library (Rust) and proofs of
the specification claims.  Machine words (`u64`) are modelled as `Nat` with
explicit `% 2^64` / masking where the source uses wrapping arithmetic;
fallible operations (assertions, `Vec` indexing) return `Option`; the
source's `f32` computations are modelled exactly by round-to-nearest-even
rational arithmetic with a 24-bit significand.
-/

/-! ## BitArray (src/bit_array.rs) -/

/-- `bits_in_word()` : 8 * size_of::<u64>() . -/
def bitsInWord : ℕ := 64

/-- `word_index_for_bit(bit)` : bit / bits_in_word() . -/
def wordIndexForBit (bit : ℕ) : ℕ := bit / bitsInWord

/-- The `BitArray` struct: a declared bit count and a vector of 64-bit
backing words (each word a `Nat`, kept `< 2^64` by the operations). -/
structure BitArray where
  bits : ℕ
  backing : List ℕ
  deriving Repr, DecidableEq

/-- `BitArray::new(bit_count)`: asserts `bit_count > 0`, allocates
`word_index_for_bit(bit_count - 1) + 1` zeroed words. -/
def BitArray.new (bitCount : ℕ) : Option BitArray :=
  if 0 < bitCount then
    some ⟨bitCount, List.replicate (wordIndexForBit (bitCount - 1) + 1) 0⟩
  else none

/-- `BitArray::set_to(bit, state)`: asserts `bit < self.bits`, then ORs in
(or ANDs out) the single-bit mask `1 << (bit % 64)` in word `bit / 64`.
`none` models the assertion failure or an out-of-range `Vec` index. -/
def BitArray.set_to (ba : BitArray) (bit : ℕ) (state : Bool) : Option BitArray :=
  if bit < ba.bits then
    let wordIx := wordIndexForBit bit
    let bitIx := bit % bitsInWord
    let setMask := 1 <<< bitIx
    match ba.backing[wordIx]? with
    | some w =>
        some { ba with
          backing := ba.backing.set wordIx
            (if state then w ||| setMask else w &&& ((2 ^ 64 - 1) ^^^ setMask)) }
    | none => none
  else none

/-- `BitArray::set(bit)` = `set_to(bit, true)`. -/
def BitArray.set (ba : BitArray) (bit : ℕ) : Option BitArray :=
  ba.set_to bit true

/-- `BitArray::clear(bit)` = `set_to(bit, false)`. -/
def BitArray.clear (ba : BitArray) (bit : ℕ) : Option BitArray :=
  ba.set_to bit false

/-- `BitArray::get(bit)`: asserts `bit < self.bits`, reads word
`bit / 64`, and tests `set_mask == word & set_mask`. -/
def BitArray.get (ba : BitArray) (bit : ℕ) : Option Bool :=
  if bit < ba.bits then
    match ba.backing[wordIndexForBit bit]? with
    | some w =>
        let setMask := 1 <<< (bit % bitsInWord)
        some (decide (setMask = w &&& setMask))
    | none => none
  else none

/-- `BitArray::width()`. -/
def BitArray.width (ba : BitArray) : ℕ := ba.bits

/-! ## index_mask (src/index_mask.rs) -/

/-- `index_mask(value)`: the first element of `(1..64).map(|i| (1<<i)-1)`
that is `>= value`, defaulting to `u64::MAX`. -/
def index_mask (value : ℕ) : ℕ :=
  ((((List.range' 1 63).map (fun i => (1 <<< i) - 1)).find?
      (fun m => decide (value ≤ m))).getD (2 ^ 64 - 1))

/-! ## Hashers and hash_until (src/hash_until.rs)

A `std::hash::Hasher` is modelled abstractly: a state type, the default
(fresh) state, `write_u64`, and `finish` (whose output is a `u64`, hence
`< 2^64`).  An item of a `Hash` type is modelled by the state transformation
its `hash` method performs on a hasher (`σ → σ`), which is deterministic. -/

structure HasherModel (σ : Type) where
  default : σ
  write_u64 : σ → ℕ → σ
  finish : σ → ℕ
  finish_lt : ∀ s, finish s < 2 ^ 64

/-- The `loop` in `hash_until`: `r` is the candidate value, `h` the hasher
carried across iterations.  `fuel` bounds the number of retries; `none`
means the loop did not terminate within `fuel` steps. -/
def hash_until_loop {σ : Type} (M : HasherModel σ) (prop : ℕ → Bool) :
    ℕ → σ → ℕ → Option (ℕ × σ)
  | 0, _, _ => none
  | fuel + 1, h, r =>
    if prop r then some (r, h)
    else
      let h1 := M.write_u64 h r
      hash_until_loop M prop fuel h1 (M.finish h1)

/-- `hash_until(h, initial, prop)`: returns `initial` immediately when
`prop initial` holds (hasher untouched); otherwise writes `initial` into
`h`, finishes, and loops.  Returns the result together with the final
hasher state. -/
def hash_until {σ : Type} (M : HasherModel σ) (fuel : ℕ) (h : σ) (initial : ℕ)
    (prop : ℕ → Bool) : Option (ℕ × σ) :=
  if prop initial then some (initial, h)
  else
    let h1 := M.write_u64 h initial
    hash_until_loop M prop fuel h1 (M.finish h1)

/-- The sequence of candidate values and hasher states `hash_until`
steps through: step 0 is `(initial, h)`; each later step writes the current
value into the carried (accumulating) hasher and finishes it. -/
def hash_acc {σ : Type} (M : HasherModel σ) (h : σ) (initial : ℕ) : ℕ → ℕ × σ
  | 0 => (initial, h)
  | n + 1 =>
    let p := hash_acc M h initial n
    let h1 := M.write_u64 p.2 p.1
    (M.finish h1, h1)

/-- Modelled from the spec (§4.3, step 2): the rejection sampler the spec
describes, where each retry feeds the current value into a FRESH hash state
seeded with that value and nothing else.  Used only to compare against the
source's `hash_until`. -/
def hash_until_fresh_spec {σ : Type} (M : HasherModel σ) (prop : ℕ → Bool) :
    ℕ → ℕ → Option ℕ
  | 0, v => if prop v then some v else none
  | fuel + 1, v =>
    if prop v then some v
    else hash_until_fresh_spec M prop fuel (M.finish (M.write_u64 M.default v))

/-! ## The f32 model (src/bloom.rs `optimal_hashers`, src/blocked.rs
`new_with_blocks`)

The source computes `(c as f32 * 2.0f32.ln()).ceil() as usize` and
`(n as f32 / b as f32).ceil() as usize`.  IEEE-754 `f32` arithmetic on the
positive values involved is exact rational arithmetic followed by rounding
to 24 significant bits, to nearest, ties to even.  We model a positive
`f32` value as an exact fraction `(num, den)` of naturals and implement
that rounding; `ceil` on an `f32` is exact, and `as usize` saturates. -/

/-- Floor of log2, by structural recursion on a fuel argument (the kernel
cannot reduce well-founded recursion, and concrete evaluation is needed). -/
def natLog2Aux : ℕ → ℕ → ℕ
  | 0, _ => 0
  | fuel + 1, n => if n ≤ 1 then 0 else natLog2Aux fuel (n / 2) + 1

/-- `natLog2 n = ⌊log2 n⌋` for `n ≥ 1`. -/
def natLog2 (n : ℕ) : ℕ := natLog2Aux n n

/-- `natClog2 n = ⌈log2 n⌉` for `n ≥ 1`. -/
def natClog2 (n : ℕ) : ℕ := if n ≤ 1 then 0 else natLog2 (n - 1) + 1

/-- Round the fraction `a / b` (with `b > 0`) to the nearest integer,
ties to even. -/
def natRoundHalfEven (a b : ℕ) : ℕ :=
  let f := a / b
  let r := a % b
  if 2 * r < b then f
  else if b < 2 * r then f + 1
  else if f % 2 = 0 then f else f + 1

/-- Round the nonnegative fraction `a / b` (with `b > 0`) to the nearest
`f32` (24-bit significand, round to nearest, ties to even), returned as an
exact fraction whose denominator is a power of two.  Exponent range
(overflow / subnormals) is not modelled; it is never reached here. -/
def f32ofFrac (a b : ℕ) : ℕ × ℕ :=
  if a = 0 then (0, 1)
  else if b ≤ a then
    let e := natLog2 (a / b)
    if 23 ≤ e then (natRoundHalfEven a (b * 2 ^ (e - 23)) * 2 ^ (e - 23), 1)
    else (natRoundHalfEven (a * 2 ^ (23 - e)) b, 2 ^ (23 - e))
  else
    let e := natClog2 ((b + a - 1) / a)
    (natRoundHalfEven (a * 2 ^ (23 + e)) b, 2 ^ (23 + e))

/-- `x.ceil() as usize` on a nonnegative `f32` fraction: exact ceiling
division, saturating at `usize::MAX`. -/
def f32toUsize (p : ℕ × ℕ) : ℕ := min (2 ^ 64 - 1) ((p.1 + p.2 - 1) / p.2)

/-- `2.0f32.ln()` as an exact fraction: the `f32` nearest to ln 2. -/
def ln2f32 : ℕ × ℕ := (11629080, 2 ^ 24)

/-- `optimal_hashers(c)` (src/bloom.rs): `(c as f32 * 2.0f32.ln()).ceil()
as usize`, with both the conversion of `c` and the product rounded to f32. -/
def optimal_hashers (c : ℕ) : ℕ :=
  let cf := f32ofFrac c 1
  f32toUsize (f32ofFrac (cf.1 * ln2f32.1) (cf.2 * ln2f32.2))

/-- The `n_per_block` computation of `BlockedBloom::new_with_blocks`:
`(n as f32 / b as f32).ceil() as usize`. -/
def n_per_block_f32 (n b : ℕ) : ℕ :=
  let nf := f32ofFrac n 1
  let bf := f32ofFrac b 1
  f32toUsize (f32ofFrac (nf.1 * bf.2) (nf.2 * bf.1))

/-! ## StandardBloom (src/standard.rs) -/

/-- The `StandardBloom` struct.  The phantom hasher / item type parameters
carry no data and are dropped; the hasher model is passed to each
operation explicitly. -/
structure StandardBloom where
  k : ℕ
  seed1 : ℕ
  seed2 : ℕ
  bits : BitArray
  mask : ℕ
  deriving Repr, DecidableEq

/-- Multiplication of two `usize` values.  Overflow is a failure of the
operation: a debug-profile build panics on it (and at a wrap-to-zero such
as `2^32 * 2^32` the release build's `assert!(n * c > 0)` fails as well),
matching the spec's fatal construction-error model. -/
def usizeMul (a b : ℕ) : Option ℕ :=
  if a * b < 2 ^ 64 then some (a * b) else none

/-- `StandardBloom::new_with_seeds(n, c, k, seed1, seed2)`: asserts
`k > 0`, computes the `usize` product `n * c` (fatal on overflow), asserts
it is nonzero, and allocates a `BitArray` of that many bits with the index
mask for `n * c - 1`. -/
def StandardBloom.new_with_seeds (n c k seed1 seed2 : ℕ) : Option StandardBloom :=
  if 0 < k then
    (usizeMul n c).bind fun bits =>
      if 0 < bits then
        (BitArray.new bits).map fun ba =>
          { k := k, seed1 := seed1, seed2 := seed2,
            bits := ba, mask := index_mask (bits - 1) }
      else none
  else none

/-- `StandardBloom::new(n, c, k)` delegates to `new_with_seeds` with two
seeds drawn from the process RNG; the RNG is externalized as arguments. -/
def StandardBloom.new (n c k seed1 seed2 : ℕ) : Option StandardBloom :=
  StandardBloom.new_with_seeds n c k seed1 seed2

/-- `StandardBloom::hash(item)`: double hashing (Kirsch–Mitzenmacher).
`ih1`, `ih2` come from fresh hashers seeded with `seed1` / `seed2` and the
item mixed in; the i-th candidate is `ih1.wrapping_add(i.wrapping_mul(ih2))`;
each candidate is rejection-sampled with a fresh hasher `h3` until the
masked value is `≤ width - 1`.  `none` models a non-terminating
`hash_until` (fuel exhausted). -/
def StandardBloom.hash {σ : Type} (M : HasherModel σ) (fuel : ℕ)
    (s : StandardBloom) (item : σ → σ) : Option (List ℕ) :=
  let ih1 := M.finish (item (M.write_u64 M.default s.seed1))
  let ih2 := M.finish (item (M.write_u64 M.default s.seed2))
  (List.range s.k).mapM fun i =>
    let k_and_m := (ih1 + i * ih2) % 2 ^ 64
    let prop := fun h => decide (s.mask &&& h ≤ s.bits.width - 1)
    (hash_until M fuel M.default k_and_m prop).map fun rh => s.mask &&& rh.1

/-- `for ix in hash { self.bits.set(ix) }`: fold `BitArray::set` over the
derived indices, propagating an assertion failure as `none`. -/
def setBits (ixs : List ℕ) (ba : BitArray) : Option BitArray :=
  match ixs with
  | [] => some ba
  | ix :: rest => (ba.set ix).bind (setBits rest)

/-- `self.hash(item).iter().all(|ix| self.bits.get(*ix))`, with the
short-circuiting of `all` (a later out-of-range index is not reached once
some bit is unset). -/
def allBits (ba : BitArray) (ixs : List ℕ) : Option Bool :=
  match ixs with
  | [] => some true
  | ix :: rest => (ba.get ix).bind fun b => if b then allBits ba rest else some false

/-- `StandardBloom::set(item)` (the trait's `mark`). -/
def StandardBloom.set {σ : Type} (M : HasherModel σ) (fuel : ℕ)
    (s : StandardBloom) (item : σ → σ) : Option StandardBloom :=
  (s.hash M fuel item).bind fun ixs =>
    (setBits ixs s.bits).map fun ba => { s with bits := ba }

/-- `StandardBloom::get(item)` (the trait's `check`). -/
def StandardBloom.get {σ : Type} (M : HasherModel σ) (fuel : ℕ)
    (s : StandardBloom) (item : σ → σ) : Option Bool :=
  (s.hash M fuel item).bind fun ixs => allBits s.bits ixs

/-- Marking a list of items in sequence. -/
def StandardBloom.setAll {σ : Type} (M : HasherModel σ) (fuel : ℕ)
    (s : StandardBloom) : List (σ → σ) → Option StandardBloom
  | [] => some s
  | item :: rest =>
    (StandardBloom.set M fuel s item).bind fun s1 =>
      StandardBloom.setAll M fuel s1 rest

/-! ## BlockedBloom (src/blocked.rs) -/

/-- The `BlockedBloom` struct: `b` standard filters, a block-selection
seed, and the index mask for `b - 1`. -/
structure BlockedBloom where
  blocks : List StandardBloom
  hasher_seed : ℕ
  mask : ℕ
  deriving Repr, DecidableEq

/-- `BlockedBloom::new_with_blocks(n, c, k, b)`: asserts all four are
nonzero, computes `n_per_block = (n as f32 / b as f32).ceil() as usize`,
asserts `n_per_block >= 1`, and builds `b` blocks via
`StandardBloom::new_with_seeds(n_per_block, c, k, _, _)`.  The RNG is
externalized: `hseed` is the block-selection seed and `seeds i` the seed
pair of block `i`. -/
def BlockedBloom.new_with_blocks (n c k b : ℕ) (hseed : ℕ) (seeds : ℕ → ℕ × ℕ) :
    Option BlockedBloom :=
  if 0 < n ∧ 0 < c ∧ 0 < k ∧ 0 < b then
    let n_per_block := n_per_block_f32 n b
    if 1 ≤ n_per_block then
      ((List.range b).mapM fun i =>
          StandardBloom.new_with_seeds n_per_block c k (seeds i).1 (seeds i).2).map
        fun blocks => { blocks := blocks, hasher_seed := hseed, mask := index_mask (b - 1) }
    else none
  else none

/-- `BlockedBloom::block_idx(item)`: hash the block-selection seed and the
item, rejection-sample with the SAME hasher until the masked value is
`≤ blocks.len() - 1`, return the masked result. -/
def BlockedBloom.block_idx {σ : Type} (M : HasherModel σ) (fuel : ℕ)
    (bb : BlockedBloom) (item : σ → σ) : Option ℕ :=
  let h := item (M.write_u64 M.default bb.hasher_seed)
  let initial := M.finish h
  let prop := fun v => decide (bb.mask &&& v ≤ bb.blocks.length - 1)
  (hash_until M fuel h initial prop).map fun rh => rh.1 &&& bb.mask

/-- `BlockedBloom::set(item)`: `self.blocks[idx].set(item)`; the `Vec`
indexing failure is `none`. -/
def BlockedBloom.set {σ : Type} (M : HasherModel σ) (fuel : ℕ)
    (bb : BlockedBloom) (item : σ → σ) : Option BlockedBloom :=
  (bb.block_idx M fuel item).bind fun idx =>
    (bb.blocks[idx]?).bind fun blk =>
      (blk.set M fuel item).map fun blk1 =>
        { bb with blocks := bb.blocks.set idx blk1 }

/-- `BlockedBloom::get(item)`: `self.blocks[idx].get(item)`. -/
def BlockedBloom.get {σ : Type} (M : HasherModel σ) (fuel : ℕ)
    (bb : BlockedBloom) (item : σ → σ) : Option Bool :=
  (bb.block_idx M fuel item).bind fun idx =>
    (bb.blocks[idx]?).bind fun blk => blk.get M fuel item

/-- Marking a list of items in sequence. -/
def BlockedBloom.setAll {σ : Type} (M : HasherModel σ) (fuel : ℕ)
    (bb : BlockedBloom) : List (σ → σ) → Option BlockedBloom
  | [] => some bb
  | item :: rest =>
    (BlockedBloom.set M fuel bb item).bind fun bb1 =>
      BlockedBloom.setAll M fuel bb1 rest

/-- The word value written by `set_to`. -/
def updWord (w bitIx : ℕ) (st : Bool) : ℕ :=
  if st then w ||| 1 <<< bitIx else w &&& ((2 ^ 64 - 1) ^^^ 1 <<< bitIx)

/-! ## BitArray invariant (word count, zero padding) -/

/-- The BitArray storage invariant: exactly `ceil(bits/64)` backing words,
every word a valid `u64`, and every storage bit at a global position
`≥ bits` (the padding in the last word) is zero. -/
def BitArray.wf (ba : BitArray) : Prop :=
  ba.backing.length = (ba.bits + 63) / 64 ∧
  (∀ w ∈ ba.backing, w < 2 ^ 64) ∧
  ∀ j, ba.bits ≤ j → (ba.backing.getD (j / 64) 0).testBit (j % 64) = false

/-! ## BitArray mutation operations (for the storage invariant claim) -/

/-- An operation from the `BitArray` mutating interface. -/
inductive BAOp where
  | setTo : ℕ → Bool → BAOp
  | set : ℕ → BAOp
  | clear : ℕ → BAOp
  deriving Repr, DecidableEq

/-- Run one operation. -/
def BAOp.apply : BAOp → BitArray → Option BitArray
  | BAOp.setTo bit st, ba => ba.set_to bit st
  | BAOp.set bit, ba => ba.set bit
  | BAOp.clear bit, ba => ba.clear bit

/-- Run a sequence of operations, stopping at the first failure. -/
def applyOps : List BAOp → BitArray → Option BitArray
  | [], ba => some ba
  | op :: rest, ba => (op.apply ba).bind (applyOps rest)

/-- The exponent `index_mask` effectively selects. -/
def imExp (v : ℕ) : ℕ := max 1 (natClog2 (v + 1))

/-- A concrete hasher over `ℕ` states, for evaluating the model. -/
def natHasher : HasherModel ℕ where
  default := 0
  write_u64 := fun s v => (s + 2 * v + 1) % 2 ^ 64
  finish := fun s => s % 2 ^ 64
  finish_lt := fun s => Nat.mod_lt _ (by positivity)

/-- A concrete hasher whose state is the list of written words, so that
the accumulation of state across `hash_until` retries is observable. -/
def listHasher : HasherModel (List ℕ) where
  default := []
  write_u64 := fun s v => s ++ [v]
  finish := fun l => (l.foldl (fun acc v => acc * 10 + v + 1) 0) % 2 ^ 64
  finish_lt := fun l => Nat.mod_lt _ (by positivity)

/-! ## State-threaded reads (frame property)

In Rust, `BitArray::get`, `StandardBloom::get` and `BlockedBloom::get` take
`&self`.  To state that these reads never mutate, each is translated a
second time in state-passing style (the receiver threaded in and out, the
blocked filter reassembling its block vector from the sub-call), and proved
to return the input state unchanged. -/

/-- `BitArray::get` with the receiver threaded through. -/
def BitArray.getS (ba : BitArray) (bit : ℕ) : Option (Bool × BitArray) :=
  if bit < ba.bits then
    match ba.backing[wordIndexForBit bit]? with
    | some w =>
        some (decide (1 <<< (bit % bitsInWord) = w &&& 1 <<< (bit % bitsInWord)), ba)
    | none => none
  else none

/-- The `all` loop of `StandardBloom::get`, threading the bit array. -/
def allBitsS : List ℕ → BitArray → Option (Bool × BitArray)
  | [], ba => some (true, ba)
  | ix :: rest, ba =>
    (ba.getS ix).bind fun p => if p.1 then allBitsS rest p.2 else some (false, p.2)

/-- `StandardBloom::get` with the receiver threaded through. -/
def StandardBloom.getS {σ : Type} (M : HasherModel σ) (fuel : ℕ)
    (s : StandardBloom) (item : σ → σ) : Option (Bool × StandardBloom) :=
  (s.hash M fuel item).bind fun ixs =>
    (allBitsS ixs s.bits).map fun p => (p.1, { s with bits := p.2 })

/-- `BlockedBloom::get` with the receiver threaded through. -/
def BlockedBloom.getS {σ : Type} (M : HasherModel σ) (fuel : ℕ)
    (bb : BlockedBloom) (item : σ → σ) : Option (Bool × BlockedBloom) :=
  (bb.block_idx M fuel item).bind fun idx =>
    (bb.blocks[idx]?).bind fun blk =>
      (blk.getS M fuel item).map fun p =>
        (p.1, { bb with blocks := bb.blocks.set idx p.2 })

/-! ## Basic word-level lemmas -/

/-- The single-bit mask test of `BitArray::get` is a `testBit`. -/
lemma mask_test_iff (w j : ℕ) : (1 <<< j = w &&& 1 <<< j) ↔ w.testBit j := by
  rw [Nat.shiftLeft_eq, one_mul]
  constructor
  · intro h
    have := congrArg (fun x => x.testBit j) h
    simp only [Nat.testBit_and, Nat.testBit_two_pow_self, Bool.and_true] at this
    exact this.symm
  · intro h
    refine Nat.eq_of_testBit_eq fun i => ?_
    rcases eq_or_ne j i with rfl | hne
    · simp [Nat.testBit_and, Nat.testBit_two_pow_self, h]
    · simp [Nat.testBit_and, Nat.testBit_two_pow_of_ne hne]

lemma testBit_or_two_pow_self (w j : ℕ) : (w ||| 1 <<< j).testBit j = true := by
  rw [Nat.shiftLeft_eq, one_mul]
  simp [Nat.testBit_or, Nat.testBit_two_pow_self]

lemma testBit_or_two_pow_of_true {w : ℕ} {i : ℕ} (j : ℕ) (h : w.testBit i = true) :
    (w ||| 1 <<< j).testBit i = true := by
  simp [Nat.testBit_or, h]

/-- ORing in an already-present bit is the identity. -/
lemma or_two_pow_of_testBit {w j : ℕ} (h : w.testBit j = true) : w ||| 1 <<< j = w := by
  rw [Nat.shiftLeft_eq, one_mul]
  refine Nat.eq_of_testBit_eq fun i => ?_
  rcases eq_or_ne j i with rfl | hne
  · simp [Nat.testBit_or, Nat.testBit_two_pow_self, h]
  · simp [Nat.testBit_or, Nat.testBit_two_pow_of_ne hne]

/-- Setting a list element back to its own value is the identity. -/
lemma List.set_getElem?_eq {α : Type} : ∀ (l : List α) (n : ℕ) (a : α),
    l[n]? = some a → l.set n a = l
  | [], _, _, h => by simp at h
  | x :: xs, 0, a, h => by simp at h; simp [h]
  | x :: xs, n + 1, a, h => by
    simp only [List.getElem?_cons_succ] at h
    simp [List.set_getElem?_eq xs n a h]

/-! ## BitArray lemmas -/

lemma BitArray.set_to_elim {ba ba2 : BitArray} {bit : ℕ} {st : Bool}
    (h : ba.set_to bit st = some ba2) :
    bit < ba.bits ∧ ∃ w, ba.backing[wordIndexForBit bit]? = some w ∧
      ba2.bits = ba.bits ∧
      ba2.backing = ba.backing.set (wordIndexForBit bit) (updWord w (bit % bitsInWord) st) := by
  unfold BitArray.set_to at h
  split at h
  · rename_i hlt
    refine ⟨hlt, ?_⟩
    dsimp only at h
    rcases hw : ba.backing[wordIndexForBit bit]? with _ | w
    · rw [hw] at h; exact absurd h (by simp)
    · rw [hw] at h
      simp only [Option.some.injEq] at h
      exact ⟨w, rfl, by rw [← h], by rw [← h]; rfl⟩
  · exact absurd h (by simp)

lemma BitArray.set_to_fields {ba ba2 : BitArray} {bit : ℕ} {st : Bool}
    (h : ba.set_to bit st = some ba2) :
    ba2.bits = ba.bits ∧ ba2.backing.length = ba.backing.length := by
  obtain ⟨-, w, -, hb, hbk⟩ := BitArray.set_to_elim h
  exact ⟨hb, by rw [hbk]; simp⟩

lemma BitArray.get_set_self {ba ba2 : BitArray} {bit : ℕ}
    (h : ba.set_to bit true = some ba2) : ba2.get bit = some true := by
  obtain ⟨hlt, w, hw, hb, hbk⟩ := BitArray.set_to_elim h
  have hwl : wordIndexForBit bit < ba.backing.length := (List.getElem?_eq_some.mp hw).1
  unfold BitArray.get
  rw [hb, if_pos hlt, hbk, List.getElem?_set_eq_of_lt _ hwl]
  simp [updWord, decide_eq_true_eq, mask_test_iff, testBit_or_two_pow_self]

lemma BitArray.get_mono_ba {ba ba2 : BitArray} {bit bit2 : ℕ}
    (h : ba.set_to bit2 true = some ba2) (hg : ba.get bit = some true) :
    ba2.get bit = some true := by
  obtain ⟨hlt2, w2, hw2, hb, hbk⟩ := BitArray.set_to_elim h
  unfold BitArray.get at hg ⊢
  split at hg
  · rename_i hlt
    rw [hb, if_pos hlt, hbk]
    rcases hw : ba.backing[wordIndexForBit bit]? with _ | w
    · rw [hw] at hg; exact absurd hg (by simp)
    · rw [hw] at hg
      simp only [Option.some.injEq, decide_eq_true_eq] at hg
      have hbit : w.testBit (bit % bitsInWord) = true := (mask_test_iff _ _).mp hg
      rcases eq_or_ne (wordIndexForBit bit2) (wordIndexForBit bit) with heq | hne
      · have hwl2 : wordIndexForBit bit2 < ba.backing.length := (List.getElem?_eq_some.mp hw2).1
        have hww : w2 = w := by
          rw [heq] at hw2; rw [hw2] at hw; exact Option.some.inj hw
        rw [heq, List.getElem?_set_eq_of_lt _ (heq ▸ hwl2)]
        simp [updWord, decide_eq_true_eq, mask_test_iff,
          testBit_or_two_pow_of_true _ (hww ▸ hbit)]
      · rw [List.getElem?_set_ne hne, hw]
        simp [decide_eq_true_eq, mask_test_iff, hbit]
  · exact absurd hg (by simp)

/-- Setting an already-set bit leaves the array unchanged. -/
lemma BitArray.set_to_id {ba : BitArray} {bit : ℕ}
    (hg : ba.get bit = some true) : ba.set_to bit true = some ba := by
  unfold BitArray.get at hg
  split at hg
  · rename_i hlt
    rcases hw : ba.backing[wordIndexForBit bit]? with _ | w
    · rw [hw] at hg; exact absurd hg (by simp)
    · rw [hw] at hg
      simp only [Option.some.injEq, decide_eq_true_eq] at hg
      have hbit : w.testBit (bit % bitsInWord) = true := (mask_test_iff _ _).mp hg
      unfold BitArray.set_to
      rw [if_pos hlt]
      dsimp only
      rw [hw]
      simp only [Option.some.injEq]
      rw [or_two_pow_of_testBit hbit]
      have : ba.backing.set (wordIndexForBit bit) w = ba.backing :=
        List.set_getElem?_eq _ _ _ hw
      cases ba
      simp_all
  · exact absurd hg (by simp)

/-! ## setBits / allBits lemmas -/

lemma setBits_fields : ∀ {l : List ℕ} {ba ba2 : BitArray}, setBits l ba = some ba2 →
    ba2.bits = ba.bits ∧ ba2.backing.length = ba.backing.length
  | [], ba, ba2, h => by
    simp only [setBits, Option.some.injEq] at h
    rw [← h]; exact ⟨rfl, rfl⟩
  | ix :: rest, ba, ba2, h => by
    simp only [setBits, Option.bind_eq_some] at h
    obtain ⟨ba1, h1, h2⟩ := h
    have f1 := BitArray.set_to_fields h1
    have f2 := setBits_fields h2
    exact ⟨f2.1.trans f1.1, f2.2.trans f1.2⟩

lemma setBits_get_mono : ∀ {l : List ℕ} {ba ba2 : BitArray} {bit : ℕ},
    setBits l ba = some ba2 → ba.get bit = some true → ba2.get bit = some true
  | [], ba, ba2, bit, h, hg => by
    simp only [setBits, Option.some.injEq] at h
    rw [← h]; exact hg
  | ix :: rest, ba, ba2, bit, h, hg => by
    simp only [setBits, Option.bind_eq_some] at h
    obtain ⟨ba1, h1, h2⟩ := h
    exact setBits_get_mono h2 (BitArray.get_mono_ba h1 hg)

lemma setBits_get_mem : ∀ {l : List ℕ} {ba ba2 : BitArray},
    setBits l ba = some ba2 → ∀ ix ∈ l, ba2.get ix = some true
  | [], ba, ba2, _, ix, hmem => by simp at hmem
  | ix0 :: rest, ba, ba2, h, ix, hmem => by
    simp only [setBits, Option.bind_eq_some] at h
    obtain ⟨ba1, h1, h2⟩ := h
    rcases List.mem_cons.mp hmem with rfl | hmem2
    · exact setBits_get_mono h2 (BitArray.get_set_self h1)
    · exact setBits_get_mem h2 ix hmem2

lemma setBits_id : ∀ {l : List ℕ} {ba : BitArray},
    (∀ ix ∈ l, ba.get ix = some true) → setBits l ba = some ba
  | [], ba, _ => rfl
  | ix0 :: rest, ba, h => by
    simp only [setBits]
    rw [BitArray.set, BitArray.set_to_id (h ix0 (List.mem_cons_self ix0 rest))]
    exact setBits_id fun ix hm => h ix (List.mem_cons_of_mem ix0 hm)

lemma allBits_of_all : ∀ {l : List ℕ} {ba : BitArray},
    (∀ ix ∈ l, ba.get ix = some true) → allBits ba l = some true
  | [], ba, _ => rfl
  | ix0 :: rest, ba, h => by
    simp only [allBits]
    rw [h ix0 (List.mem_cons_self ix0 rest)]
    simp only [Option.some_bind, if_pos]
    exact allBits_of_all fun ix hm => h ix (List.mem_cons_of_mem ix0 hm)

lemma allBits_true_elim : ∀ {l : List ℕ} {ba : BitArray},
    allBits ba l = some true → ∀ ix ∈ l, ba.get ix = some true
  | [], ba, _, ix, hmem => by simp at hmem
  | ix0 :: rest, ba, h, ix, hmem => by
    simp only [allBits, Option.bind_eq_some] at h
    obtain ⟨b, hb, hrest⟩ := h
    by_cases hbt : b = true
    · subst hbt
      rw [if_pos rfl] at hrest
      rcases List.mem_cons.mp hmem with rfl | hmem2
      · exact hb
      · exact allBits_true_elim hrest ix hmem2
    · rw [if_neg hbt] at hrest
      exact absurd (Option.some.inj hrest) (by simp)

lemma allBits_isSome : ∀ {l : List ℕ} {ba : BitArray},
    (∀ ix ∈ l, (ba.get ix).isSome) → (allBits ba l).isSome
  | [], ba, _ => rfl
  | ix0 :: rest, ba, h => by
    simp only [allBits]
    rcases hg : ba.get ix0 with _ | b
    · have := h ix0 (List.mem_cons_self ix0 rest)
      rw [hg] at this; exact absurd this (by simp)
    · cases b
      · simp
      · simp only [Option.some_bind, if_pos]
        exact allBits_isSome fun ix hm => h ix (List.mem_cons_of_mem ix0 hm)

lemma BitArray.set_to_isSome {ba : BitArray} {bit : ℕ} (st : Bool)
    (hlt : bit < ba.bits) (hcov : wordIndexForBit bit < ba.backing.length) :
    ∃ ba2, ba.set_to bit st = some ba2 := by
  unfold BitArray.set_to
  rw [if_pos hlt]
  dsimp only
  rw [List.getElem?_eq_getElem hcov]
  exact ⟨_, rfl⟩

lemma BitArray.get_isSome_ba {ba : BitArray} {bit : ℕ}
    (hlt : bit < ba.bits) (hcov : wordIndexForBit bit < ba.backing.length) :
    (ba.get bit).isSome := by
  unfold BitArray.get
  rw [if_pos hlt]
  dsimp only
  rw [List.getElem?_eq_getElem hcov]
  rfl

lemma setBits_isSome : ∀ {l : List ℕ} {ba : BitArray},
    (∀ ix ∈ l, ix < ba.bits) →
    (∀ bit, bit < ba.bits → wordIndexForBit bit < ba.backing.length) →
    ∃ ba2, setBits l ba = some ba2
  | [], ba, _, _ => ⟨ba, rfl⟩
  | ix0 :: rest, ba, hin, hcov => by
    have hlt0 : ix0 < ba.bits := hin ix0 (List.mem_cons_self ix0 rest)
    obtain ⟨ba1, h1⟩ := BitArray.set_to_isSome true hlt0 (hcov ix0 hlt0)
    have f1 := BitArray.set_to_fields h1
    obtain ⟨ba2, h2⟩ := @setBits_isSome rest ba1
      (fun ix hm => f1.1 ▸ hin ix (List.mem_cons_of_mem ix0 hm))
      (fun bit hb => f1.2 ▸ hcov bit (f1.1 ▸ hb))
    exact ⟨ba2, by simp only [setBits, BitArray.set]; rw [h1, Option.some_bind, h2]⟩

/-! ## hash_until lemmas -/

lemma hash_until_loop_prop {σ : Type} {M : HasherModel σ} {prop : ℕ → Bool} :
    ∀ {fuel : ℕ} {h : σ} {r : ℕ} {out : ℕ × σ},
    hash_until_loop M prop fuel h r = some out → prop out.1 = true
  | 0, h, r, out, hyp => by simp [hash_until_loop] at hyp
  | fuel + 1, h, r, out, hyp => by
    unfold hash_until_loop at hyp
    split at hyp
    · rename_i hp
      cases Option.some.inj hyp
      exact hp
    · exact hash_until_loop_prop hyp

/-- Whatever `hash_until` returns satisfies the predicate. -/
lemma hash_until_prop {σ : Type} {M : HasherModel σ} {prop : ℕ → Bool}
    {fuel : ℕ} {h : σ} {initial : ℕ} {out : ℕ × σ}
    (hyp : hash_until M fuel h initial prop = some out) : prop out.1 = true := by
  unfold hash_until at hyp
  split at hyp
  · rename_i hp
    cases Option.some.inj hyp
    exact hp
  · exact hash_until_loop_prop hyp

lemma hash_acc_shift {σ : Type} (M : HasherModel σ) (h : σ) (initial : ℕ) :
    ∀ n, hash_acc M h initial (n + 1) =
      hash_acc M (M.write_u64 h initial) (M.finish (M.write_u64 h initial)) n
  | 0 => rfl
  | n + 1 => by
    have ih := hash_acc_shift M h initial n
    show (let p := hash_acc M h initial (n + 1);
          (M.finish (M.write_u64 p.2 p.1), M.write_u64 p.2 p.1)) = _
    rw [ih]
    rfl

lemma hash_until_loop_acc {σ : Type} (M : HasherModel σ) (prop : ℕ → Bool) :
    ∀ (n fuel : ℕ) (h : σ) (r : ℕ), n < fuel →
    (∀ m, m < n → prop (hash_acc M h r m).1 = false) →
    prop (hash_acc M h r n).1 = true →
    hash_until_loop M prop fuel h r = some (hash_acc M h r n)
  | 0, fuel, h, r, hfuel, _, hp => by
    obtain ⟨f, rfl⟩ := Nat.exists_eq_add_of_lt hfuel
    have hp2 : prop r = true := hp
    unfold hash_until_loop
    rw [if_pos hp2]
    rfl
  | n + 1, fuel, h, r, hfuel, hm, hp => by
    obtain ⟨f, rfl⟩ := Nat.exists_eq_add_of_lt hfuel
    have hr0 : prop r = false := hm 0 (Nat.succ_pos n)
    show hash_until_loop M prop (n + 1 + f + 1) h r = _
    unfold hash_until_loop
    rw [hr0]
    simp only [Bool.false_eq_true, if_false]
    have hshift := hash_acc_shift M h r
    rw [hshift (n)]
    exact hash_until_loop_acc M prop n (n + 1 + f) (M.write_u64 h r)
      (M.finish (M.write_u64 h r)) (by omega)
      (fun m hmn => by rw [← hshift m]; exact hm (m + 1) (by omega))
      (by rw [← hshift n]; exact hp)

/-! ## mapM helpers -/

lemma mapM_some_of_all {α β : Type} (f : α → Option β) : ∀ (l : List α),
    (∀ x ∈ l, (f x).isSome) → ∃ res, l.mapM f = some res ∧ res.length = l.length
  | [], _ => ⟨[], rfl, rfl⟩
  | x :: xs, h => by
    rcases hx : f x with _ | y
    · have := h x (List.mem_cons_self x xs)
      rw [hx] at this; exact absurd this (by simp)
    · obtain ⟨res, hres, hlen⟩ := mapM_some_of_all f xs
        (fun z hz => h z (List.mem_cons_of_mem x hz))
      have hres2 : List.mapM.loop f xs [] = some res := hres
      exact ⟨y :: res, by rw [List.mapM_cons]; simp [hx, hres2], by simp [hlen]⟩

lemma mapM_mem {α β : Type} (f : α → Option β) : ∀ (l : List α) (res : List β),
    l.mapM f = some res → ∀ y ∈ res, ∃ x ∈ l, f x = some y
  | [], res, h, y, hy => by
    simp only [List.mapM_nil, Option.pure_def, Option.some.injEq] at h
    rw [← h] at hy; simp at hy
  | x :: xs, res, h, y, hy => by
    simp only [List.mapM_cons, Option.pure_def, Option.bind_eq_bind,
      Option.bind_eq_some, Option.some.injEq] at h
    obtain ⟨z, hz, rest, hrest, hres⟩ := h
    rw [← hres] at hy
    rcases List.mem_cons.mp hy with rfl | hy2
    · exact ⟨x, List.mem_cons_self x xs, hz⟩
    · obtain ⟨x2, hx2, hfx2⟩ := mapM_mem f xs rest hrest y hy2
      exact ⟨x2, List.mem_cons_of_mem x hx2, hfx2⟩

/-! ## StandardBloom lemmas -/

lemma StandardBloom.hash_congr {σ : Type} (M : HasherModel σ) (fuel : ℕ)
    {s1 s2 : StandardBloom} (hk : s1.k = s2.k) (hs1 : s1.seed1 = s2.seed1)
    (hs2 : s1.seed2 = s2.seed2) (hm : s1.mask = s2.mask)
    (hw : s1.bits.bits = s2.bits.bits) (item : σ → σ) :
    s1.hash M fuel item = s2.hash M fuel item := by
  unfold StandardBloom.hash BitArray.width
  rw [hk, hs1, hs2, hm, hw]

lemma StandardBloom.set_elim_sb {σ : Type} {M : HasherModel σ} {fuel : ℕ}
    {s s1 : StandardBloom} {item : σ → σ}
    (h : StandardBloom.set M fuel s item = some s1) :
    ∃ ixs ba1, s.hash M fuel item = some ixs ∧ setBits ixs s.bits = some ba1 ∧
      s1.k = s.k ∧ s1.seed1 = s.seed1 ∧ s1.seed2 = s.seed2 ∧ s1.mask = s.mask ∧
      s1.bits = ba1 := by
  unfold StandardBloom.set at h
  rw [Option.bind_eq_some] at h
  obtain ⟨ixs, hixs, hmap⟩ := h
  rw [Option.map_eq_some'] at hmap
  obtain ⟨ba1, hba1, hs1⟩ := hmap
  exact ⟨ixs, ba1, hixs, hba1, by rw [← hs1], by rw [← hs1], by rw [← hs1],
    by rw [← hs1], by rw [← hs1]⟩

/-- After a successful `set`, the same item hashes identically and all its
bits are set, so `get` returns `some true`. -/
lemma StandardBloom.get_of_set_sb {σ : Type} {M : HasherModel σ} {fuel : ℕ}
    {s s1 : StandardBloom} {item : σ → σ}
    (h : StandardBloom.set M fuel s item = some s1) :
    StandardBloom.get M fuel s1 item = some true := by
  obtain ⟨ixs, ba1, hixs, hba1, hk, h1, h2, hm, hb⟩ := StandardBloom.set_elim_sb h
  have hw : s1.bits.bits = s.bits.bits := by rw [hb, (setBits_fields hba1).1]
  have hhash : s1.hash M fuel item = some ixs := by
    rw [StandardBloom.hash_congr M fuel hk h1 h2 hm hw item, hixs]
  unfold StandardBloom.get
  rw [hhash, Option.some_bind]
  exact allBits_of_all fun ix hm2 => hb ▸ setBits_get_mem hba1 ix hm2

/-- `get = some true` survives a successful `set` of any other item. -/
lemma StandardBloom.get_mono_sb {σ : Type} {M : HasherModel σ} {fuel : ℕ}
    {s s1 : StandardBloom} {x y : σ → σ}
    (hset : StandardBloom.set M fuel s y = some s1)
    (hget : StandardBloom.get M fuel s x = some true) :
    StandardBloom.get M fuel s1 x = some true := by
  obtain ⟨iys, ba1, hiys, hba1, hk, h1, h2, hm, hb⟩ := StandardBloom.set_elim_sb hset
  have hw : s1.bits.bits = s.bits.bits := by rw [hb, (setBits_fields hba1).1]
  unfold StandardBloom.get at hget ⊢
  rw [Option.bind_eq_some] at hget
  obtain ⟨ixs, hixs, hall⟩ := hget
  have hhash : s1.hash M fuel x = some ixs := by
    rw [StandardBloom.hash_congr M fuel hk h1 h2 hm hw x, hixs]
  rw [hhash, Option.some_bind]
  exact allBits_of_all fun ix hm2 =>
    hb ▸ setBits_get_mono hba1 (allBits_true_elim hall ix hm2)

lemma StandardBloom.get_mono_all_sb {σ : Type} {M : HasherModel σ} {fuel : ℕ} :
    ∀ {ys : List (σ → σ)} {s s2 : StandardBloom} {x : σ → σ},
    StandardBloom.setAll M fuel s ys = some s2 →
    StandardBloom.get M fuel s x = some true →
    StandardBloom.get M fuel s2 x = some true
  | [], s, s2, x, hall, hget => by
    simp only [StandardBloom.setAll, Option.some.injEq] at hall
    rw [← hall]; exact hget
  | y :: ys, s, s2, x, hall, hget => by
    simp only [StandardBloom.setAll, Option.bind_eq_some] at hall
    obtain ⟨s1, h1, h2⟩ := hall
    exact StandardBloom.get_mono_all_sb h2 (StandardBloom.get_mono_sb h1 hget)

/-! ## BlockedBloom lemmas -/

lemma BlockedBloom.block_idx_congr {σ : Type} (M : HasherModel σ) (fuel : ℕ)
    {bb1 bb2 : BlockedBloom} (hs : bb1.hasher_seed = bb2.hasher_seed)
    (hm : bb1.mask = bb2.mask) (hl : bb1.blocks.length = bb2.blocks.length)
    (item : σ → σ) :
    bb1.block_idx M fuel item = bb2.block_idx M fuel item := by
  unfold BlockedBloom.block_idx
  rw [hs, hm, hl]

lemma BlockedBloom.set_elim_bb {σ : Type} {M : HasherModel σ} {fuel : ℕ}
    {bb bb1 : BlockedBloom} {item : σ → σ}
    (h : BlockedBloom.set M fuel bb item = some bb1) :
    ∃ idx blk blk1, bb.block_idx M fuel item = some idx ∧
      bb.blocks[idx]? = some blk ∧ StandardBloom.set M fuel blk item = some blk1 ∧
      bb1.blocks = bb.blocks.set idx blk1 ∧ bb1.hasher_seed = bb.hasher_seed ∧
      bb1.mask = bb.mask := by
  unfold BlockedBloom.set at h
  rw [Option.bind_eq_some] at h
  obtain ⟨idx, hidx, h⟩ := h
  rw [Option.bind_eq_some] at h
  obtain ⟨blk, hblk, h⟩ := h
  rw [Option.map_eq_some'] at h
  obtain ⟨blk1, hblk1, hbb1⟩ := h
  exact ⟨idx, blk, blk1, hidx, hblk, hblk1, by rw [← hbb1], by rw [← hbb1],
    by rw [← hbb1]⟩

lemma BlockedBloom.get_of_set_bb {σ : Type} {M : HasherModel σ} {fuel : ℕ}
    {bb bb1 : BlockedBloom} {item : σ → σ}
    (h : BlockedBloom.set M fuel bb item = some bb1) :
    BlockedBloom.get M fuel bb1 item = some true := by
  obtain ⟨idx, blk, blk1, hidx, hblk, hblk1, hblocks, hseed, hmask⟩ :=
    BlockedBloom.set_elim_bb h
  have hlen : bb1.blocks.length = bb.blocks.length := by
    rw [hblocks, List.length_set]
  have hidx1 : bb1.block_idx M fuel item = some idx := by
    rw [BlockedBloom.block_idx_congr M fuel hseed hmask hlen item, hidx]
  have hlt : idx < bb.blocks.length := (List.getElem?_eq_some.mp hblk).1
  unfold BlockedBloom.get
  rw [hidx1, Option.some_bind, hblocks, List.getElem?_set_eq_of_lt _ hlt,
    Option.some_bind]
  exact StandardBloom.get_of_set_sb hblk1

lemma BlockedBloom.get_mono_bb {σ : Type} {M : HasherModel σ} {fuel : ℕ}
    {bb bb1 : BlockedBloom} {x y : σ → σ}
    (hset : BlockedBloom.set M fuel bb y = some bb1)
    (hget : BlockedBloom.get M fuel bb x = some true) :
    BlockedBloom.get M fuel bb1 x = some true := by
  obtain ⟨iy, blky, blky1, hiy, hblky, hblky1, hblocks, hseed, hmask⟩ :=
    BlockedBloom.set_elim_bb hset
  have hlen : bb1.blocks.length = bb.blocks.length := by
    rw [hblocks, List.length_set]
  unfold BlockedBloom.get at hget ⊢
  rw [Option.bind_eq_some] at hget
  obtain ⟨ix, hix, hget⟩ := hget
  rw [Option.bind_eq_some] at hget
  obtain ⟨blkx, hblkx, hget⟩ := hget
  have hix1 : bb1.block_idx M fuel x = some ix := by
    rw [BlockedBloom.block_idx_congr M fuel hseed hmask hlen x, hix]
  rw [hix1, Option.some_bind, hblocks]
  rcases eq_or_ne iy ix with rfl | hne
  · have hlt : iy < bb.blocks.length := (List.getElem?_eq_some.mp hblky).1
    rw [List.getElem?_set_eq_of_lt _ hlt, Option.some_bind]
    have : blky = blkx := by rw [hblky] at hblkx; exact Option.some.inj hblkx
    exact StandardBloom.get_mono_sb hblky1 (this ▸ hget)
  · rw [List.getElem?_set_ne hne, hblkx, Option.some_bind]
    exact hget

lemma BlockedBloom.get_mono_all_bb {σ : Type} {M : HasherModel σ} {fuel : ℕ} :
    ∀ {ys : List (σ → σ)} {bb bb2 : BlockedBloom} {x : σ → σ},
    BlockedBloom.setAll M fuel bb ys = some bb2 →
    BlockedBloom.get M fuel bb x = some true →
    BlockedBloom.get M fuel bb2 x = some true
  | [], bb, bb2, x, hall, hget => by
    simp only [BlockedBloom.setAll, Option.some.injEq] at hall
    rw [← hall]; exact hget
  | y :: ys, bb, bb2, x, hall, hget => by
    simp only [BlockedBloom.setAll, Option.bind_eq_some] at hall
    obtain ⟨bb1, h1, h2⟩ := hall
    exact BlockedBloom.get_mono_all_bb h2 (BlockedBloom.get_mono_bb h1 hget)

/-! ## In-range and success lemmas -/

/-- Word coverage: with `ceil(bits/64)` backing words, every in-range bit
lies in an existing word. -/
lemma BitArray.cov {ba : BitArray} (hlen : ba.backing.length = (ba.bits + 63) / 64)
    (hpos : 0 < ba.bits) : ∀ bit, bit < ba.bits → wordIndexForBit bit < ba.backing.length := by
  intro bit hbit
  have h1 : (ba.bits + 63) / 64 = (ba.bits - 1) / 64 + 1 := by
    have : ba.bits + 63 = (ba.bits - 1) + 64 := by omega
    rw [this, Nat.add_div_right _ (by norm_num)]
  have h2 : wordIndexForBit bit ≤ (ba.bits - 1) / 64 :=
    Nat.div_le_div_right (by omega)
  rw [hlen, h1]
  omega

lemma StandardBloom.hash_lt {σ : Type} {M : HasherModel σ} {fuel : ℕ}
    {s : StandardBloom} {item : σ → σ} {ixs : List ℕ}
    (h : s.hash M fuel item = some ixs) (hpos : 0 < s.bits.bits) :
    ∀ ix ∈ ixs, ix < s.bits.bits := by
  intro ix hix
  unfold StandardBloom.hash at h
  obtain ⟨i, -, hfi⟩ := mapM_mem _ _ _ h ix hix
  rw [Option.map_eq_some'] at hfi
  obtain ⟨rh, hrh, hix_eq⟩ := hfi
  have hp := hash_until_prop hrh
  rw [decide_eq_true_eq] at hp
  unfold BitArray.width at hp
  omega

lemma StandardBloom.set_isSome {σ : Type} {M : HasherModel σ} {fuel : ℕ}
    {s : StandardBloom} {item : σ → σ} {ixs : List ℕ}
    (hh : s.hash M fuel item = some ixs) (hpos : 0 < s.bits.bits)
    (hlen : s.bits.backing.length = (s.bits.bits + 63) / 64) :
    ∃ s1, StandardBloom.set M fuel s item = some s1 := by
  obtain ⟨ba1, hba1⟩ := setBits_isSome (StandardBloom.hash_lt hh hpos)
    (BitArray.cov hlen hpos)
  refine ⟨{ s with bits := ba1 }, ?_⟩
  unfold StandardBloom.set
  rw [hh, Option.some_bind, hba1]
  rfl

lemma StandardBloom.get_isSome_sb {σ : Type} {M : HasherModel σ} {fuel : ℕ}
    {s : StandardBloom} {item : σ → σ} {ixs : List ℕ}
    (hh : s.hash M fuel item = some ixs) (hpos : 0 < s.bits.bits)
    (hlen : s.bits.backing.length = (s.bits.bits + 63) / 64) :
    (StandardBloom.get M fuel s item).isSome := by
  unfold StandardBloom.get
  rw [hh, Option.some_bind]
  exact allBits_isSome fun ix hm =>
    BitArray.get_isSome_ba (StandardBloom.hash_lt hh hpos ix hm)
      (BitArray.cov hlen hpos ix (StandardBloom.hash_lt hh hpos ix hm))

lemma BlockedBloom.block_idx_lt {σ : Type} {M : HasherModel σ} {fuel : ℕ}
    {bb : BlockedBloom} {item : σ → σ} {idx : ℕ}
    (h : bb.block_idx M fuel item = some idx) (hpos : 0 < bb.blocks.length) :
    idx < bb.blocks.length := by
  unfold BlockedBloom.block_idx at h
  rw [Option.map_eq_some'] at h
  obtain ⟨rh, hrh, hidx⟩ := h
  have hp := hash_until_prop hrh
  rw [decide_eq_true_eq] at hp
  have : idx = bb.mask &&& rh.1 := by rw [← hidx, Nat.and_comm]
  omega

lemma BitArray.wf_new {bc : ℕ} {ba : BitArray} (h : BitArray.new bc = some ba) :
    ba.wf := by
  unfold BitArray.new at h
  split at h
  · rename_i hpos
    cases Option.some.inj h
    refine ⟨?_, ?_, ?_⟩
    · simp only [List.length_replicate]
      unfold wordIndexForBit bitsInWord
      omega
    · intro w hw
      rw [List.eq_of_mem_replicate hw]
      positivity
    · intro j _
      rw [List.getD_eq_getElem?_getD]
      rcases hrep : (List.replicate (wordIndexForBit (bc - 1) + 1) (0 : ℕ))[j / 64]? with _ | w
      · simp [Nat.zero_testBit]
      · have : w = 0 := List.eq_of_mem_replicate (List.getElem?_mem hrep)
        simp [this, Nat.zero_testBit]
  · exact absurd h (by simp)

lemma BitArray.wf_set_to {ba ba2 : BitArray} {bit : ℕ} {st : Bool}
    (hwf : ba.wf) (h : ba.set_to bit st = some ba2) : ba2.wf := by
  obtain ⟨hlen, hword, hpad⟩ := hwf
  obtain ⟨hlt, w, hw, hbits, hback⟩ := BitArray.set_to_elim h
  have hwlt : wordIndexForBit bit < ba.backing.length := (List.getElem?_eq_some.mp hw).1
  have hbix : bit % bitsInWord < 64 := Nat.mod_lt _ (by norm_num [bitsInWord])
  have hshift_lt : 1 <<< (bit % bitsInWord) < 2 ^ 64 := by
    rw [Nat.shiftLeft_eq, one_mul]
    exact Nat.pow_lt_pow_right (by norm_num) hbix
  refine ⟨?_, ?_, ?_⟩
  · rw [hback, List.length_set, hbits, hlen]
  · intro v hv
    rw [hback] at hv
    rcases List.mem_or_eq_of_mem_set hv with hv2 | rfl
    · exact hword v hv2
    · unfold updWord
      split
      · exact Nat.or_lt_two_pow (hword w (List.getElem?_mem hw)) hshift_lt
      · exact lt_of_le_of_lt Nat.and_le_left (hword w (List.getElem?_mem hw))
  · intro j hj
    rw [hbits] at hj
    rw [hback, List.getD_eq_getElem?_getD]
    rcases eq_or_ne (j / 64) (wordIndexForBit bit) with heq | hne
    · rw [heq, List.getElem?_set_eq_of_lt _ hwlt]
      have hpadw : w.testBit (j % 64) = false := by
        have := hpad j hj
        rw [List.getD_eq_getElem?_getD, heq, hw] at this
        exact this
      have hne_ix : bit % bitsInWord ≠ j % 64 := by
        intro hcontra
        have hdiv : bit / bitsInWord = j / 64 := by
          unfold wordIndexForBit at heq; omega
        unfold bitsInWord at hcontra hdiv
        omega
      unfold updWord
      split
      · simp only [Option.getD_some, Nat.testBit_or, hpadw, Bool.false_or]
        rw [Nat.shiftLeft_eq, one_mul]
        exact Nat.testBit_two_pow_of_ne hne_ix
      · simp only [Option.getD_some, Nat.testBit_and, hpadw, Bool.false_and]
    · rw [List.getElem?_set_ne (fun hcontra => hne hcontra.symm)]
      have := hpad j hj
      rw [List.getD_eq_getElem?_getD] at this
      exact this

lemma BAOp.apply_as_set_to {op : BAOp} {ba ba2 : BitArray}
    (h : op.apply ba = some ba2) : ∃ bit st, ba.set_to bit st = some ba2 := by
  cases op with
  | setTo bit st => exact ⟨bit, st, h⟩
  | set bit => exact ⟨bit, true, h⟩
  | clear bit => exact ⟨bit, false, h⟩

lemma wf_applyOps : ∀ {ops : List BAOp} {ba ba2 : BitArray},
    ba.wf → applyOps ops ba = some ba2 → ba2.wf ∧ ba2.bits = ba.bits
  | [], ba, ba2, hwf, h => by
    simp only [applyOps, Option.some.injEq] at h
    rw [← h]; exact ⟨hwf, rfl⟩
  | op :: rest, ba, ba2, hwf, h => by
    simp only [applyOps, Option.bind_eq_some] at h
    obtain ⟨ba1, h1, h2⟩ := h
    obtain ⟨bit, st, hst⟩ := BAOp.apply_as_set_to h1
    have hwf1 := BitArray.wf_set_to hwf hst
    have hb1 := (BitArray.set_to_fields hst).1
    obtain ⟨hwf2, hb2⟩ := wf_applyOps hwf1 h2
    exact ⟨hwf2, hb2.trans hb1⟩

/-! ## natLog2 / natClog2 bounds -/

lemma natLog2Aux_le : ∀ (fuel n : ℕ), 0 < n → n ≤ fuel → 2 ^ natLog2Aux fuel n ≤ n
  | 0, n, hpos, hle => by omega
  | fuel + 1, n, hpos, hle => by
    unfold natLog2Aux
    split
    · rename_i h1; simpa using hpos
    · rename_i h1
      have h2 : 2 ≤ n := by omega
      have ih := natLog2Aux_le fuel (n / 2) (by omega) (by omega)
      calc 2 ^ (natLog2Aux fuel (n / 2) + 1) = 2 ^ natLog2Aux fuel (n / 2) * 2 := by ring
        _ ≤ n / 2 * 2 := by omega
        _ ≤ n := by omega

lemma natLog2Aux_lt : ∀ (fuel n : ℕ), n ≤ fuel → n < 2 ^ (natLog2Aux fuel n + 1)
  | 0, n, hle => by
    have : n = 0 := by omega
    simp [this, natLog2Aux]
  | fuel + 1, n, hle => by
    unfold natLog2Aux
    split
    · rename_i h1; omega
    · rename_i h1
      have h2 : 2 ≤ n := by omega
      have ih := natLog2Aux_lt fuel (n / 2) (by omega)
      have : n / 2 + 1 ≤ 2 ^ (natLog2Aux fuel (n / 2) + 1) := ih
      calc n < (n / 2 + 1) * 2 := by omega
        _ ≤ 2 ^ (natLog2Aux fuel (n / 2) + 1) * 2 := by omega
        _ = 2 ^ (natLog2Aux fuel (n / 2) + 1 + 1) := by ring

lemma natLog2_le {n : ℕ} (hpos : 0 < n) : 2 ^ natLog2 n ≤ n :=
  natLog2Aux_le n n hpos le_rfl

lemma natLog2_lt (n : ℕ) : n < 2 ^ (natLog2 n + 1) :=
  natLog2Aux_lt n n le_rfl

/-- `n ≤ 2 ^ natClog2 n` for `n ≥ 1` (also true at `n = 0`). -/
lemma le_pow_natClog2 (n : ℕ) : n ≤ 2 ^ natClog2 n := by
  unfold natClog2
  split
  · rename_i h1; simpa using h1
  · rename_i h1
    have := natLog2_lt (n - 1)
    omega

/-- `natClog2 n ≤ m` whenever `n ≤ 2 ^ m`: minimality of the ceiling log. -/
lemma natClog2_le {n m : ℕ} (h : n ≤ 2 ^ m) : natClog2 n ≤ m := by
  unfold natClog2
  split
  · omega
  · rename_i h1
    have hpos : 0 < n - 1 := by omega
    have hlow := natLog2_le hpos
    by_contra hcon
    have hml : m ≤ natLog2 (n - 1) := by omega
    have : 2 ^ m ≤ 2 ^ natLog2 (n - 1) := Nat.pow_le_pow_right (by norm_num) hml
    omega

/-! ## index_mask characterization -/

lemma find?_masks_none (v : ℕ) : ∀ (len start : ℕ),
    (∀ i, start ≤ i → i < start + len → (1 <<< i) - 1 < v) →
    ((List.range' start len).map (fun i => (1 <<< i) - 1)).find?
      (fun m => decide (v ≤ m)) = none
  | 0, start, _ => rfl
  | len + 1, start, h => by
    rw [List.range'_succ]
    simp only [List.map_cons, List.find?_cons]
    rw [decide_eq_false (by have := h start le_rfl (by omega); omega)]
    exact find?_masks_none v len (start + 1) fun i hi1 hi2 => h i (by omega) (by omega)

lemma find?_masks_some (v : ℕ) : ∀ (len start m0 : ℕ), start ≤ m0 → m0 < start + len →
    v ≤ (1 <<< m0) - 1 →
    (∀ j, start ≤ j → j < m0 → (1 <<< j) - 1 < v) →
    ((List.range' start len).map (fun i => (1 <<< i) - 1)).find?
      (fun m => decide (v ≤ m)) = some ((1 <<< m0) - 1)
  | 0, start, m0, h1, h2, _, _ => by omega
  | len + 1, start, m0, h1, h2, hle, hmin => by
    rw [List.range'_succ]
    simp only [List.map_cons, List.find?_cons]
    rcases eq_or_lt_of_le h1 with rfl | hlt
    · rw [decide_eq_true (by omega)]
    · rw [decide_eq_false (by have := hmin start le_rfl hlt; omega)]
      exact find?_masks_some v len (start + 1) m0 hlt (by omega) hle
        fun j hj1 hj2 => hmin j (by omega) hj2

lemma index_mask_eq {v : ℕ} (hv : v < 2 ^ 64) : index_mask v = 2 ^ imExp v - 1 := by
  have hshift : ∀ i : ℕ, (1 <<< i : ℕ) = 2 ^ i := fun i => by
    rw [Nat.shiftLeft_eq, one_mul]
  by_cases hbig : 2 ^ 63 - 1 < v
  · have hcl : natClog2 (v + 1) = 64 := by
      have h1 : natClog2 (v + 1) ≤ 64 := natClog2_le (by omega)
      have h2 : ¬ natClog2 (v + 1) ≤ 63 := by
        intro hcon
        have := le_pow_natClog2 (v + 1)
        have : v + 1 ≤ 2 ^ 63 :=
          le_trans this (Nat.pow_le_pow_right (by norm_num) hcon)
        omega
      omega
    have hnone := find?_masks_none v 63 1 fun i hi1 hi2 => by
      have : (2 : ℕ) ^ i ≤ 2 ^ 63 := Nat.pow_le_pow_right (by norm_num) (by omega)
      rw [hshift i]; omega
    unfold index_mask imExp
    rw [hnone, hcl]
    rfl
  · set m0 := imExp v with hm0
    have hcl_le : natClog2 (v + 1) ≤ 63 := natClog2_le (by omega)
    have hm0_ge : 1 ≤ m0 := le_max_left _ _
    have hm0_le : m0 ≤ 63 := by
      unfold imExp at hm0
      omega
    have hv_le : v ≤ 2 ^ m0 - 1 := by
      have h1 : v + 1 ≤ 2 ^ natClog2 (v + 1) := le_pow_natClog2 (v + 1)
      have h2 : (2 : ℕ) ^ natClog2 (v + 1) ≤ 2 ^ m0 :=
        Nat.pow_le_pow_right (by norm_num) (le_max_right _ _)
      omega
    have hmin : ∀ j, 1 ≤ j → j < m0 → 2 ^ j - 1 < v := by
      intro j hj1 hj2
      by_contra hcon
      have hvj : v + 1 ≤ 2 ^ j := by
        have : (0 : ℕ) < 2 ^ j := Nat.pos_pow_of_pos j (by norm_num)
        omega
      have : natClog2 (v + 1) ≤ j := natClog2_le hvj
      unfold imExp at hm0
      omega
    have hsome := find?_masks_some v 63 1 m0 hm0_ge (by omega)
      (by rw [hshift m0]; exact hv_le)
      (fun j hj1 hj2 => by rw [hshift j]; exact hmin j hj1 hj2)
    unfold index_mask
    rw [hsome, hshift m0]
    rfl

/-! ## f32 model positivity -/

lemma natRoundHalfEven_ge_div (a b : ℕ) : a / b ≤ natRoundHalfEven a b := by
  unfold natRoundHalfEven
  dsimp only
  split
  · exact le_rfl
  · split
    · omega
    · split <;> omega

lemma f32ofFrac_pos {a b : ℕ} (ha : 0 < a) (hb : 0 < b) :
    0 < (f32ofFrac a b).1 ∧ 0 < (f32ofFrac a b).2 := by
  unfold f32ofFrac
  rw [if_neg (by omega)]
  split
  · rename_i hba
    have hdiv_pos : 0 < a / b := (Nat.one_le_div_iff hb).mpr hba
    have hlow : 2 ^ natLog2 (a / b) ≤ a / b := natLog2_le hdiv_pos
    have hmul : 2 ^ natLog2 (a / b) * b ≤ a := (Nat.le_div_iff_mul_le hb).mp hlow
    dsimp only
    split
    · rename_i he
      constructor
      · have hble : b * 2 ^ (natLog2 (a / b) - 23) ≤ a := by
          calc b * 2 ^ (natLog2 (a / b) - 23) ≤ b * 2 ^ natLog2 (a / b) :=
                Nat.mul_le_mul_left b (Nat.pow_le_pow_right (by norm_num) (by omega))
            _ = 2 ^ natLog2 (a / b) * b := Nat.mul_comm _ _
            _ ≤ a := hmul
        have hge : 1 ≤ a / (b * 2 ^ (natLog2 (a / b) - 23)) :=
          (Nat.one_le_div_iff (by positivity)).mpr hble
        have := natRoundHalfEven_ge_div a (b * 2 ^ (natLog2 (a / b) - 23))
        have hpow : (0 : ℕ) < 2 ^ (natLog2 (a / b) - 23) := by positivity
        exact Nat.mul_pos (by omega) hpow
      · norm_num
    · constructor
      · have hble : b ≤ a * 2 ^ (23 - natLog2 (a / b)) :=
          le_trans hba (Nat.le_mul_of_pos_right a (by positivity))
        have := natRoundHalfEven_ge_div (a * 2 ^ (23 - natLog2 (a / b))) b
        have hge : 1 ≤ a * 2 ^ (23 - natLog2 (a / b)) / b :=
          (Nat.one_le_div_iff hb).mpr hble
        omega
      · positivity
  · rename_i hab
    dsimp only
    have hcd : 0 < (b + a - 1) / a := (Nat.one_le_div_iff ha).mpr (by omega)
    have hbacd : b ≤ a * ((b + a - 1) / a) := by
      have := Nat.lt_mul_div_succ (b + a - 1) ha
      -- b + a - 1 < a * ((b + a - 1) / a + 1)
      have h2 : b + a - 1 < a * ((b + a - 1) / a) + a := by
        calc b + a - 1 < a * ((b + a - 1) / a + 1) := this
          _ = a * ((b + a - 1) / a) + a := by ring
      omega
    have hcd2 : (b + a - 1) / a ≤ 2 ^ natClog2 ((b + a - 1) / a) :=
      le_pow_natClog2 _
    constructor
    · have hble : b ≤ a * 2 ^ (23 + natClog2 ((b + a - 1) / a)) := by
        calc b ≤ a * ((b + a - 1) / a) := hbacd
          _ ≤ a * 2 ^ natClog2 ((b + a - 1) / a) := Nat.mul_le_mul_left a hcd2
          _ ≤ a * 2 ^ (23 + natClog2 ((b + a - 1) / a)) :=
              Nat.mul_le_mul_left a (Nat.pow_le_pow_right (by norm_num) (by omega))
      have := natRoundHalfEven_ge_div (a * 2 ^ (23 + natClog2 ((b + a - 1) / a))) b
      have hge : 1 ≤ a * 2 ^ (23 + natClog2 ((b + a - 1) / a)) / b :=
        (Nat.one_le_div_iff hb).mpr hble
      omega
    · positivity

lemma f32toUsize_pos {p : ℕ × ℕ} (h1 : 0 < p.1) (h2 : 0 < p.2) :
    1 ≤ f32toUsize p := by
  unfold f32toUsize
  have : 1 ≤ (p.1 + p.2 - 1) / p.2 := (Nat.one_le_div_iff h2).mpr (by omega)
  have h64 : (1 : ℕ) ≤ 2 ^ 64 - 1 := by norm_num
  omega

lemma n_per_block_f32_pos {n b : ℕ} (hn : 0 < n) (hb : 0 < b) :
    1 ≤ n_per_block_f32 n b := by
  unfold n_per_block_f32
  have hnf := f32ofFrac_pos hn (by norm_num : (0 : ℕ) < 1)
  have hbf := f32ofFrac_pos hb (by norm_num : (0 : ℕ) < 1)
  have hq := f32ofFrac_pos (Nat.mul_pos hnf.1 hbf.2) (Nat.mul_pos hnf.2 hbf.1)
  exact f32toUsize_pos hq.1 hq.2

/-! ## Ceiling-division bridge and concrete hashers -/

/-- The ceiling of a natural fraction is the usual `(a + b - 1) / b`. -/
lemma ceil_div_nat (a b : ℕ) (hb : 0 < b) :
    ⌈(a : ℝ) / b⌉ = (((a + b - 1) / b : ℕ) : ℤ) := by
  set n := (a + b - 1) / b with hn
  have h1 : n * b ≤ a + b - 1 := Nat.div_mul_le_self _ _
  have h2 : a + b - 1 < n * b + b := by
    have := Nat.lt_mul_div_succ (a + b - 1) hb
    rw [Nat.mul_add, Nat.mul_one, Nat.mul_comm] at this
    exact this
  have ha_le : a ≤ n * b := by omega
  have hlt : n * b < a + b := by omega
  have hbR : (0 : ℝ) < b := by exact_mod_cast hb
  rw [Int.ceil_eq_iff]
  refine ⟨?_, ?_⟩
  · rw [lt_div_iff₀ hbR]
    have hltR : ((n * b : ℕ) : ℝ) < ((a + b : ℕ) : ℝ) := by exact_mod_cast hlt
    push_cast at hltR ⊢
    nlinarith [hltR]
  · rw [div_le_iff₀ hbR]
    exact_mod_cast ha_le

lemma BitArray.getS_pure_ba (ba : BitArray) (bit : ℕ) :
    ba.getS bit = (ba.get bit).map fun b => (b, ba) := by
  unfold BitArray.getS BitArray.get
  split
  · rcases ba.backing[wordIndexForBit bit]? with _ | w <;> rfl
  · rfl

lemma allBitsS_pure : ∀ (ixs : List ℕ) (ba : BitArray),
    allBitsS ixs ba = (allBits ba ixs).map fun b => (b, ba)
  | [], ba => rfl
  | ix :: rest, ba => by
    unfold allBitsS allBits
    rw [BitArray.getS_pure_ba]
    rcases ba.get ix with _ | b
    · rfl
    · cases b
      · rfl
      · simp only [Option.map_some', Option.some_bind, if_pos]
        exact allBitsS_pure rest ba

lemma StandardBloom.getS_pure_sb {σ : Type} (M : HasherModel σ) (fuel : ℕ)
    (s : StandardBloom) (item : σ → σ) :
    StandardBloom.getS M fuel s item =
      (StandardBloom.get M fuel s item).map fun b => (b, s) := by
  unfold StandardBloom.getS StandardBloom.get
  rcases s.hash M fuel item with _ | ixs
  · rfl
  · simp only [Option.some_bind]
    rw [allBitsS_pure]
    rcases allBits s.bits ixs with _ | b
    · rfl
    · simp only [Option.map_some']

lemma BlockedBloom.getS_pure_bb {σ : Type} (M : HasherModel σ) (fuel : ℕ)
    (bb : BlockedBloom) (item : σ → σ) :
    BlockedBloom.getS M fuel bb item =
      (BlockedBloom.get M fuel bb item).map fun b => (b, bb) := by
  unfold BlockedBloom.getS BlockedBloom.get
  rcases bb.block_idx M fuel item with _ | idx
  · rfl
  · simp only [Option.some_bind]
    rcases hblk : bb.blocks[idx]? with _ | blk
    · rfl
    · simp only [Option.some_bind]
      rw [StandardBloom.getS_pure_sb]
      rcases StandardBloom.get M fuel blk item with _ | b
      · rfl
      · simp only [Option.map_some']
        rw [List.set_getElem?_eq _ _ _ hblk]

/-! ## Claim theorems -/

/-- C2 (counterexample): with `k = 2 > c = 1` (and `k > 0`, `n*c = 1 > 0`),
`StandardBloom::new_with_seeds` SUCCEEDS — the source has no `k <= c`
assertion — contradicting the claim that construction fails when `k > c`. -/
theorem claim_construction_kc_counterexample :
    1 < 2 ∧ 0 < 2 ∧ 0 < 1 * 1 ∧
    StandardBloom.new_with_seeds 1 1 2 0 0 =
      some { k := 2, seed1 := 0, seed2 := 0,
             bits := { bits := 1, backing := [0] }, mask := 1 } := by
  refine ⟨by norm_num, by norm_num, by norm_num, by decide⟩

/-- C2 (amended): `StandardBloom::new_with_seeds(n, c, k, _, _)` succeeds
exactly when `k > 0`, `n*c > 0`, and the `usize` product `n*c` does not
overflow; `k > c` is NOT rejected.  `new` delegates to `new_with_seeds`. -/
theorem claim_construction_guards :
    (∀ n c k seed1 seed2 : ℕ,
      (StandardBloom.new_with_seeds n c k seed1 seed2).isSome = true ↔
        (0 < k ∧ 0 < n * c ∧ n * c < 2 ^ 64)) ∧
    (∀ n c k seed1 seed2 : ℕ,
      StandardBloom.new n c k seed1 seed2 =
        StandardBloom.new_with_seeds n c k seed1 seed2) := by
  constructor
  · intro n c k seed1 seed2
    unfold StandardBloom.new_with_seeds usizeMul
    by_cases hk : 0 < k
    · rw [if_pos hk]
      by_cases hlt : n * c < 2 ^ 64
      · rw [if_pos hlt]
        simp only [Option.some_bind]
        by_cases hpos : 0 < n * c
        · rw [if_pos hpos]
          unfold BitArray.new
          rw [if_pos hpos]
          simp only [Option.map_some', Option.isSome_some]
          exact ⟨fun _ => ⟨hk, hpos, hlt⟩, fun _ => trivial⟩
        · rw [if_neg hpos]
          exact ⟨fun h => absurd h (by simp), fun hcon => absurd hcon.2.1 hpos⟩
      · rw [if_neg hlt]
        simp only [Option.none_bind]
        exact ⟨fun h => absurd h (by simp), fun hcon => absurd hcon.2.2 hlt⟩
    · rw [if_neg hk]
      exact ⟨fun h => absurd h (by simp), fun hcon => absurd hcon.1 hk⟩
  · intro n c k seed1 seed2
    rfl

/-- C3 (counterexample): `optimal_hashers(16)` is `12`, not the `11` the
spec asserts (`ceil(16 · ln 2) = ceil(11.09...) = 12`). -/
theorem claim_optimal_hashers_counterexample :
    optimal_hashers 16 = 12 ∧ optimal_hashers 16 ≠ 11 := by decide

/-- C3 (amended): `optimal_hashers(c)` computes `ceil` of the f32 product
`c * ln 2`; for every `1 ≤ c ≤ 64` this equals the exact `⌈c · ln 2⌉`, and
in particular `optimal_hashers(16) = 12` (not 11). -/
theorem claim_optimal_hashers :
    (∀ c : ℕ, 0 < c → c ≤ 64 →
      (optimal_hashers c : ℤ) = ⌈(c : ℝ) * Real.log 2⌉) ∧
    optimal_hashers 16 = 12 := by
  constructor
  · intro c hc hc64
    have hgrid : ∀ m : ℕ, m < 65 →
        optimal_hashers m = (m * 6931471808 + 10 ^ 10 - 1) / 10 ^ 10 ∧
        (m * 6931471803 + 10 ^ 10 - 1) / 10 ^ 10 =
          (m * 6931471808 + 10 ^ 10 - 1) / 10 ^ 10 := by decide
    obtain ⟨h1, h2⟩ := hgrid c (by omega)
    have hU : ⌈(c : ℝ) * (6931471808 / 10 ^ 10)⌉ =
        (((c * 6931471808 + 10 ^ 10 - 1) / 10 ^ 10 : ℕ) : ℤ) := by
      rw [← ceil_div_nat (c * 6931471808) (10 ^ 10) (by norm_num)]
      congr 1
      push_cast
      ring
    have hL : ⌈(c : ℝ) * (6931471803 / 10 ^ 10)⌉ =
        (((c * 6931471803 + 10 ^ 10 - 1) / 10 ^ 10 : ℕ) : ℤ) := by
      rw [← ceil_div_nat (c * 6931471803) (10 ^ 10) (by norm_num)]
      congr 1
      push_cast
      ring
    have hcR : (0 : ℝ) < c := by exact_mod_cast hc
    have hlogU : Real.log 2 ≤ 6931471808 / 10 ^ 10 := by
      have h9 := Real.log_two_lt_d9
      have : (0.6931471808 : ℝ) = 6931471808 / 10 ^ 10 := by norm_num
      linarith [this ▸ h9]
    have hlogL : (6931471803 / 10 ^ 10 : ℝ) ≤ Real.log 2 := by
      have h9 := Real.log_two_gt_d9
      have : (0.6931471803 : ℝ) = 6931471803 / 10 ^ 10 := by norm_num
      linarith [this ▸ h9]
    have hle1 : ⌈(c : ℝ) * Real.log 2⌉ ≤ ⌈(c : ℝ) * (6931471808 / 10 ^ 10)⌉ :=
      Int.ceil_le_ceil (by nlinarith)
    have hle2 : ⌈(c : ℝ) * (6931471803 / 10 ^ 10)⌉ ≤ ⌈(c : ℝ) * Real.log 2⌉ :=
      Int.ceil_le_ceil (by nlinarith)
    have h2Z := congrArg (fun x : ℕ => (x : ℤ)) h2
    simp only at h2Z
    rw [h1]
    omega
  · decide

/-- C3 (witness): the general statement applied at `c = 16`. -/
theorem claim_optimal_hashers_witness :
    (optimal_hashers 16 : ℤ) = ⌈((16 : ℕ) : ℝ) * Real.log 2⌉ :=
  claim_optimal_hashers.1 16 (by norm_num) (by norm_num)

/-- C5 (counterexample): the source's `hash_until` REUSES the caller's
hasher across retries (the state accumulates every value fed in), rather
than hashing each retry in a fresh state seeded with the value alone.
With a hasher whose state records the written words, the code returns the
hash of `[0, 1]` (= 12) while the fresh-per-retry sampler of the spec
walks `0,1,2,...` and returns 10. -/
theorem claim_hash_until_counterexample :
    hash_until listHasher 20 [] 0 (fun v => decide (10 ≤ v)) = some (12, [0, 1]) ∧
    hash_until_fresh_spec listHasher (fun v => decide (10 ≤ v)) 20 0 = some 10 ∧
    (12 : ℕ) ≠ 10 := by
  refine ⟨by decide, by decide, by decide⟩

/-- C5 (amended): if `prop initial` holds, `hash_until` returns `initial`
with the hasher untouched and no hash computed (the `n = 0` case below);
otherwise each retry writes the current value into the SAME hasher carried
across retries — whose state accumulates all previously written values —
finalizes it, and re-tests, so the result is step `n` of the accumulating
sequence `hash_acc`, for the first `n` whose value satisfies the
predicate. -/
theorem claim_hash_until_accumulates :
    ∀ (σ : Type) (M : HasherModel σ) (h : σ) (initial : ℕ) (prop : ℕ → Bool)
      (fuel n : ℕ), n ≤ fuel →
      (∀ m, m < n → prop (hash_acc M h initial m).1 = false) →
      prop (hash_acc M h initial n).1 = true →
      hash_until M fuel h initial prop = some (hash_acc M h initial n) := by
  intro σ M h initial prop fuel n hn hm hp
  cases n with
  | zero =>
    have hp0 : prop initial = true := hp
    unfold hash_until
    rw [if_pos hp0]
    rfl
  | succ n =>
    have hp0 : prop initial = false := hm 0 (Nat.succ_pos n)
    unfold hash_until
    rw [hp0]
    simp only [Bool.false_eq_true, if_false]
    have hshift := hash_acc_shift M h initial
    rw [hshift n]
    exact hash_until_loop_acc M prop n fuel (M.write_u64 h initial)
      (M.finish (M.write_u64 h initial)) (by omega)
      (fun m hmn => by rw [← hshift m]; exact hm (m + 1) (by omega))
      (by rw [← hshift n]; exact hp)

/-- C5 (witness): with an always-true predicate the initial value comes
back unchanged with the hasher untouched, at fuel 0. -/
theorem claim_hash_until_accumulates_witness :
    hash_until natHasher 0 0 7 (fun _ => true) = some (hash_acc natHasher 0 7 0) :=
  claim_hash_until_accumulates ℕ natHasher 0 7 (fun _ => true) 0 0 le_rfl
    (fun m hm => absurd hm (Nat.not_lt_zero m)) (by decide)

/-- C7: `index_mask(v)` is the smallest mask of the form `2^m - 1`
(`1 ≤ m ≤ 64`) that is `≥ v`, with the all-ones value as the fallback, and
the spec's four concrete values hold. -/
theorem claim_index_mask :
    ∀ v : ℕ, v < 2 ^ 64 →
      (∃ m, 1 ≤ m ∧ m ≤ 64 ∧ index_mask v = 2 ^ m - 1 ∧ v ≤ index_mask v ∧
        ∀ m2, 1 ≤ m2 → m2 ≤ 64 → v ≤ 2 ^ m2 - 1 →
          index_mask v ≤ 2 ^ m2 - 1) ∧
      index_mask 0 = 1 ∧ index_mask 1 = 1 ∧ index_mask 2 = 3 ∧
      index_mask (2 ^ 63) = 2 ^ 64 - 1 := by
  intro v hv
  refine ⟨⟨imExp v, le_max_left _ _, ?_, index_mask_eq hv, ?_, ?_⟩,
    by decide, by decide, by decide, by decide⟩
  · have h1 : natClog2 (v + 1) ≤ 64 := natClog2_le (by omega)
    unfold imExp
    omega
  · rw [index_mask_eq hv]
    have h1 : v + 1 ≤ 2 ^ natClog2 (v + 1) := le_pow_natClog2 (v + 1)
    have h2 : (2 : ℕ) ^ natClog2 (v + 1) ≤ 2 ^ imExp v :=
      Nat.pow_le_pow_right (by norm_num) (le_max_right _ _)
    omega
  · intro m2 hm2a hm2b hm2c
    rw [index_mask_eq hv]
    have hvm : v + 1 ≤ 2 ^ m2 := by
      have : (0 : ℕ) < 2 ^ m2 := Nat.pos_pow_of_pos m2 (by norm_num)
      omega
    have h1 : natClog2 (v + 1) ≤ m2 := natClog2_le hvm
    have h2 : imExp v ≤ m2 := by unfold imExp; omega
    have h3 : (2 : ℕ) ^ imExp v ≤ 2 ^ m2 := Nat.pow_le_pow_right (by norm_num) h2
    omega

/-- C7 (witness): the characterization applied at `v = 5`
(`index_mask 5 = 7`). -/
theorem claim_index_mask_witness :
    (∃ m, 1 ≤ m ∧ m ≤ 64 ∧ index_mask 5 = 2 ^ m - 1 ∧ 5 ≤ index_mask 5 ∧
      ∀ m2, 1 ≤ m2 → m2 ≤ 64 → 5 ≤ 2 ^ m2 - 1 →
        index_mask 5 ≤ 2 ^ m2 - 1) ∧
    index_mask 0 = 1 ∧ index_mask 1 = 1 ∧ index_mask 2 = 3 ∧
    index_mask (2 ^ 63) = 2 ^ 64 - 1 :=
  claim_index_mask 5 (by norm_num)

/-- C9: reads never mutate: the state-passing translations of
`BitArray::get`, `StandardBloom::get` and `BlockedBloom::get` return the
receiver unchanged alongside the same boolean the pure reads compute, for
every state and argument (in range or not). -/
theorem claim_reads_pure :
    (∀ (ba : BitArray) (bit : ℕ),
      ba.getS bit = (ba.get bit).map fun b => (b, ba)) ∧
    (∀ (σ : Type) (M : HasherModel σ) (fuel : ℕ) (s : StandardBloom) (x : σ → σ),
      StandardBloom.getS M fuel s x =
        (StandardBloom.get M fuel s x).map fun b => (b, s)) ∧
    (∀ (σ : Type) (M : HasherModel σ) (fuel : ℕ) (bb : BlockedBloom) (x : σ → σ),
      BlockedBloom.getS M fuel bb x =
        (BlockedBloom.get M fuel bb x).map fun b => (b, bb)) :=
  ⟨BitArray.getS_pure_ba,
   fun _ M fuel s x => StandardBloom.getS_pure_sb M fuel s x,
   fun _ M fuel bb x => BlockedBloom.getS_pure_bb M fuel bb x⟩

/-- C10: a `BitArray` built by `new(bit_count)` and mutated through any
sequence of successful `set_to`/`set`/`clear` operations keeps exactly
`ceil(bit_count/64)` backing words, and every storage bit at a position
`≥ bit_count` stays zero. -/
theorem claim_bitarray_padding :
    ∀ (bc : ℕ) (ops : List BAOp) (ba0 ba : BitArray),
      BitArray.new bc = some ba0 → applyOps ops ba0 = some ba →
      ba.bits = bc ∧ ba.backing.length = (bc + 63) / 64 ∧
      ∀ j, bc ≤ j → (ba.backing.getD (j / 64) 0).testBit (j % 64) = false := by
  intro bc ops ba0 ba hnew hops
  have hwf0 := BitArray.wf_new hnew
  have hbc : ba0.bits = bc := by
    unfold BitArray.new at hnew
    split at hnew
    · cases Option.some.inj hnew; rfl
    · exact absurd hnew (by simp)
  obtain ⟨hwf, hbits⟩ := wf_applyOps hwf0 hops
  obtain ⟨hlen, -, hpad⟩ := hwf
  rw [hbits, hbc] at hlen hpad ⊢
  exact ⟨rfl, hlen, hpad⟩

/-- C10 (witness): `new(1)` followed by `set 0; set_to 0 false; clear 0;
set 0`. -/
theorem claim_bitarray_padding_witness :
    (⟨1, [1]⟩ : BitArray).bits = 1 ∧
    (⟨1, [1]⟩ : BitArray).backing.length = (1 + 63) / 64 ∧
    ∀ j, 1 ≤ j →
      ((⟨1, [1]⟩ : BitArray).backing.getD (j / 64) 0).testBit (j % 64) = false :=
  claim_bitarray_padding 1 [BAOp.set 0, BAOp.setTo 0 false, BAOp.clear 0, BAOp.set 0]
    ⟨1, [0]⟩ ⟨1, [1]⟩ (by decide) (by decide)

/-- C1: no false negatives.  After a successful `set(x)` on either filter,
`get(x)` returns `true`, and it still returns `true` after any sequence of
further successful `set`s (of any items). -/
theorem claim_no_false_negatives :
    (∀ (σ : Type) (M : HasherModel σ) (fuel : ℕ) (s s1 : StandardBloom)
      (x : σ → σ), StandardBloom.set M fuel s x = some s1 →
      StandardBloom.get M fuel s1 x = some true ∧
      ∀ (ys : List (σ → σ)) (s2 : StandardBloom),
        StandardBloom.setAll M fuel s1 ys = some s2 →
        StandardBloom.get M fuel s2 x = some true) ∧
    (∀ (σ : Type) (M : HasherModel σ) (fuel : ℕ) (bb bb1 : BlockedBloom)
      (x : σ → σ), BlockedBloom.set M fuel bb x = some bb1 →
      BlockedBloom.get M fuel bb1 x = some true ∧
      ∀ (ys : List (σ → σ)) (bb2 : BlockedBloom),
        BlockedBloom.setAll M fuel bb1 ys = some bb2 →
        BlockedBloom.get M fuel bb2 x = some true) := by
  constructor
  · intro σ M fuel s s1 x hset
    exact ⟨StandardBloom.get_of_set_sb hset,
      fun ys s2 hall =>
        StandardBloom.get_mono_all_sb hall (StandardBloom.get_of_set_sb hset)⟩
  · intro σ M fuel bb bb1 x hset
    exact ⟨BlockedBloom.get_of_set_bb hset,
      fun ys bb2 hall =>
        BlockedBloom.get_mono_all_bb hall (BlockedBloom.get_of_set_bb hset)⟩

/-- C1 (witness): a width-2 standard filter marks item `v ↦ v + 3` into
bit 0 and checks it. -/
theorem claim_no_false_negatives_witness :
    StandardBloom.get natHasher 0 ⟨1, 0, 0, ⟨2, [1]⟩, 1⟩ (fun v => v + 3) =
      some true ∧
    ∀ (ys : List (ℕ → ℕ)) (s2 : StandardBloom),
      StandardBloom.setAll natHasher 0 ⟨1, 0, 0, ⟨2, [1]⟩, 1⟩ ys = some s2 →
      StandardBloom.get natHasher 0 s2 (fun v => v + 3) = some true :=
  claim_no_false_negatives.1 ℕ natHasher 0 ⟨1, 0, 0, ⟨2, [0]⟩, 1⟩
    ⟨1, 0, 0, ⟨2, [1]⟩, 1⟩ (fun v => v + 3) (by decide)

/-- C8: marking the same item twice yields the very same filter (bit-for-bit
equal), hence identical `check` results on every item, and marking never
clears a set bit. -/
theorem claim_mark_idempotent :
    ∀ (σ : Type) (M : HasherModel σ) (fuel : ℕ) (s s1 s2 : StandardBloom)
      (x : σ → σ),
      StandardBloom.set M fuel s x = some s1 →
      StandardBloom.set M fuel s1 x = some s2 →
      s2 = s1 ∧
      (∀ y : σ → σ, StandardBloom.get M fuel s2 y = StandardBloom.get M fuel s1 y) ∧
      ∀ bit : ℕ, s.bits.get bit = some true → s1.bits.get bit = some true := by
  intro σ M fuel s s1 s2 x hset1 hset2
  obtain ⟨ixs, ba1, hixs, hba1, hk, hs1, hs2, hm, hb⟩ := StandardBloom.set_elim_sb hset1
  have hw : s1.bits.bits = s.bits.bits := by rw [hb, (setBits_fields hba1).1]
  have hhash : s1.hash M fuel x = some ixs := by
    rw [StandardBloom.hash_congr M fuel hk hs1 hs2 hm hw x, hixs]
  have hallset : ∀ ix ∈ ixs, s1.bits.get ix = some true :=
    fun ix hmem => hb ▸ setBits_get_mem hba1 ix hmem
  have hid : setBits ixs s1.bits = some s1.bits := setBits_id hallset
  have hset2b : StandardBloom.set M fuel s1 x = some s1 := by
    unfold StandardBloom.set
    rw [hhash, Option.some_bind, hid]
    rfl
  have hs2eq : s2 = s1 := by
    rw [hset2b] at hset2
    exact (Option.some.inj hset2).symm
  exact ⟨hs2eq, fun y => by rw [hs2eq],
    fun bit hget => hb ▸ setBits_get_mono hba1 hget⟩

/-- C8 (witness): double-marking `v ↦ v + 1` in a width-2 filter. -/
theorem claim_mark_idempotent_witness :
    (⟨1, 0, 0, ⟨2, [1]⟩, 1⟩ : StandardBloom) = ⟨1, 0, 0, ⟨2, [1]⟩, 1⟩ ∧
    (∀ y : ℕ → ℕ,
      StandardBloom.get natHasher 0 ⟨1, 0, 0, ⟨2, [1]⟩, 1⟩ y =
        StandardBloom.get natHasher 0 ⟨1, 0, 0, ⟨2, [1]⟩, 1⟩ y) ∧
    ∀ bit : ℕ, (⟨2, [0]⟩ : BitArray).get bit = some true →
      (⟨2, [1]⟩ : BitArray).get bit = some true :=
  claim_mark_idempotent ℕ natHasher 0 ⟨1, 0, 0, ⟨2, [0]⟩, 1⟩
    ⟨1, 0, 0, ⟨2, [1]⟩, 1⟩ ⟨1, 0, 0, ⟨2, [1]⟩, 1⟩ (fun v => v + 1)
    (by decide) (by decide)

lemma StandardBloom.new_with_seeds_elim {n c k seed1 seed2 : ℕ} {blk : StandardBloom}
    (h : StandardBloom.new_with_seeds n c k seed1 seed2 = some blk) :
    blk.k = k ∧ blk.seed1 = seed1 ∧ blk.seed2 = seed2 ∧ blk.bits.bits = n * c ∧
    blk.bits.backing.length = (n * c + 63) / 64 ∧
    blk.mask = index_mask (n * c - 1) := by
  unfold StandardBloom.new_with_seeds usizeMul at h
  split at h
  · split at h
    · simp only [Option.some_bind] at h
      split at h
      · rename_i hpos
        unfold BitArray.new at h
        rw [if_pos hpos] at h
        simp only [Option.map_some', Option.some.injEq] at h
        rw [← h]
        refine ⟨rfl, rfl, rfl, rfl, ?_, rfl⟩
        simp only [List.length_replicate]
        unfold wordIndexForBit bitsInWord
        omega
      · exact absurd h (by simp)
    · exact absurd h (by simp)
  · exact absurd h (by simp)

lemma StandardBloom.new_with_seeds_isSome {n c k : ℕ} (seed1 seed2 : ℕ)
    (hk : 0 < k) (hnc : 0 < n * c) (hlt : n * c < 2 ^ 64) :
    ∃ blk, StandardBloom.new_with_seeds n c k seed1 seed2 = some blk := by
  unfold StandardBloom.new_with_seeds usizeMul BitArray.new
  rw [if_pos hk, if_pos hlt]
  simp only [Option.some_bind]
  rw [if_pos hnc, if_pos hnc]
  exact ⟨_, rfl⟩

lemma StandardBloom.new_with_seeds_overflow {n c : ℕ} (k seed1 seed2 : ℕ)
    (hge : 2 ^ 64 ≤ n * c) :
    StandardBloom.new_with_seeds n c k seed1 seed2 = none := by
  unfold StandardBloom.new_with_seeds usizeMul
  split
  · rw [if_neg (by omega)]
    rfl
  · rfl

lemma mapM_none_of_all_none {α β : Type} (f : α → Option β) :
    ∀ l : List α, l ≠ [] → (∀ x ∈ l, f x = none) → l.mapM f = none
  | [], h, _ => absurd rfl h
  | x :: xs, _, hall => by
    rw [List.mapM_cons, hall x (List.mem_cons_self x xs)]
    rfl

/-- C4 (counterexample): `n_per_block` comes from an f32 division, not
exact ceiling division.  With `n = 2^24 + 1 = 16777217` and `b = 64`,
`n as f32` rounds to `2^24` (tie to even), so every block is sized for
`262144` members while `ceil(n/b) = 262145`. -/
theorem claim_blocked_construction_counterexample :
    ((BlockedBloom.new_with_blocks 16777217 1 1 64 0 (fun _ => (0, 0))).map
        fun bb => bb.blocks.map fun blk => blk.bits.bits) =
      some (List.replicate 64 262144) ∧
    (16777217 + 64 - 1) / 64 = 262145 ∧ (262144 : ℕ) ≠ 262145 := by
  refine ⟨by decide, by decide, by decide⟩

/-- C4 (amended): `new_with_blocks(n, c, k, b)` fails when one of
`n, c, k, b` is zero, and also when the per-block `usize` product
`n_per_block * c` overflows inside a block's construction; otherwise it
builds exactly `b` StandardBloomFilter blocks, each with `k` hashers and
`n_per_block * c` bits, where `n_per_block` is the f32 ceiling
`(n as f32 / b as f32).ceil()`.  This agrees with exact ceiling division
for small inputs (checked for all `1 ≤ n, b ≤ 32`) but not in general
(see the counterexample). -/
theorem claim_blocked_construction :
    (∀ (n c k b hseed : ℕ) (seeds : ℕ → ℕ × ℕ), 0 < n → 0 < c → 0 < k → 0 < b →
      n_per_block_f32 n b * c < 2 ^ 64 →
      ∃ bb, BlockedBloom.new_with_blocks n c k b hseed seeds = some bb ∧
        bb.blocks.length = b ∧ bb.hasher_seed = hseed ∧
        bb.mask = index_mask (b - 1) ∧
        ∀ blk ∈ bb.blocks, blk.k = k ∧ blk.bits.bits = n_per_block_f32 n b * c) ∧
    (∀ n2 : ℕ, n2 < 33 → ∀ b2 : ℕ, b2 < 33 → 0 < n2 → 0 < b2 →
      n_per_block_f32 n2 b2 = (n2 + b2 - 1) / b2) ∧
    (∀ (n c k b hseed : ℕ) (seeds : ℕ → ℕ × ℕ), (n = 0 ∨ c = 0 ∨ k = 0 ∨ b = 0) →
      BlockedBloom.new_with_blocks n c k b hseed seeds = none) ∧
    (∀ (n c k b hseed : ℕ) (seeds : ℕ → ℕ × ℕ), 0 < n → 0 < c → 0 < k → 0 < b →
      2 ^ 64 ≤ n_per_block_f32 n b * c →
      BlockedBloom.new_with_blocks n c k b hseed seeds = none) := by
  refine ⟨?_, ?_, ?_, ?_⟩
  · intro n c k b hseed seeds hn hc hk hb hflt
    have hnpb : 1 ≤ n_per_block_f32 n b := n_per_block_f32_pos hn hb
    have hnc : 0 < n_per_block_f32 n b * c := Nat.mul_pos (by omega) hc
    have hall : ∀ i ∈ List.range b,
        (StandardBloom.new_with_seeds (n_per_block_f32 n b) c k
          (seeds i).1 (seeds i).2).isSome := by
      intro i _
      obtain ⟨blk, hblk⟩ :=
        StandardBloom.new_with_seeds_isSome (seeds i).1 (seeds i).2 hk hnc hflt
      rw [hblk]; rfl
    obtain ⟨res, hres, hlen⟩ := mapM_some_of_all _ (List.range b) hall
    refine ⟨⟨res, hseed, index_mask (b - 1)⟩, ?_, ?_, rfl, rfl, ?_⟩
    · unfold BlockedBloom.new_with_blocks
      rw [if_pos ⟨hn, hc, hk, hb⟩]
      dsimp only
      rw [if_pos hnpb, hres]
      rfl
    · simpa using hlen
    · intro blk hblk
      obtain ⟨i, -, hfi⟩ := mapM_mem _ (List.range b) res hres blk hblk
      have := StandardBloom.new_with_seeds_elim hfi
      exact ⟨this.1, this.2.2.2.1⟩
  · decide
  · intro n c k b hseed seeds hzero
    unfold BlockedBloom.new_with_blocks
    rw [if_neg (by omega)]
  · intro n c k b hseed seeds hn hc hk hb hge
    have hnpb : 1 ≤ n_per_block_f32 n b := n_per_block_f32_pos hn hb
    unfold BlockedBloom.new_with_blocks
    rw [if_pos ⟨hn, hc, hk, hb⟩]
    dsimp only
    rw [if_pos hnpb]
    rw [mapM_none_of_all_none _ (List.range b)
      (by simp only [ne_eq, List.range_eq_nil]; omega)
      (fun i _ => StandardBloom.new_with_seeds_overflow k (seeds i).1 (seeds i).2 hge)]
    rfl

/-- C4 (witness): the construction statement applied at
`n = 2, c = 3, k = 1, b = 2`. -/
theorem claim_blocked_construction_witness :
    ∃ bb, BlockedBloom.new_with_blocks 2 3 1 2 7 (fun i => (i, i + 1)) = some bb ∧
      bb.blocks.length = 2 ∧ bb.hasher_seed = 7 ∧
      bb.mask = index_mask (2 - 1) ∧
      ∀ blk ∈ bb.blocks, blk.k = 1 ∧ blk.bits.bits = n_per_block_f32 2 2 * 3 :=
  claim_blocked_construction.1 2 3 1 2 7 (fun i => (i, i + 1))
    (by norm_num) (by norm_num) (by norm_num) (by norm_num) (by decide)

/-- C6: every derived bit index is below the bit array's declared width,
every derived block index is below the block count, and hence
`set`/`get` never fail, whenever the `hash_until` calls terminate. -/
theorem claim_indices_in_range :
    (∀ (σ : Type) (M : HasherModel σ) (fuel : ℕ) (s : StandardBloom) (x : σ → σ)
      (ixs : List ℕ), 0 < s.bits.bits →
      s.bits.backing.length = (s.bits.bits + 63) / 64 →
      s.hash M fuel x = some ixs →
      (∀ ix ∈ ixs, ix < s.bits.bits) ∧
      (StandardBloom.set M fuel s x).isSome ∧
      (StandardBloom.get M fuel s x).isSome) ∧
    (∀ (σ : Type) (M : HasherModel σ) (fuel : ℕ) (bb : BlockedBloom) (x : σ → σ)
      (idx : ℕ), 0 < bb.blocks.length →
      bb.block_idx M fuel x = some idx →
      (∀ blk ∈ bb.blocks, 0 < blk.bits.bits ∧
        blk.bits.backing.length = (blk.bits.bits + 63) / 64 ∧
        (blk.hash M fuel x).isSome) →
      idx < bb.blocks.length ∧
      (BlockedBloom.set M fuel bb x).isSome ∧
      (BlockedBloom.get M fuel bb x).isSome) := by
  constructor
  · intro σ M fuel s x ixs hpos hlen hh
    refine ⟨StandardBloom.hash_lt hh hpos, ?_, StandardBloom.get_isSome_sb hh hpos hlen⟩
    obtain ⟨s1, hs1⟩ := StandardBloom.set_isSome hh hpos hlen
    rw [hs1]; rfl
  · intro σ M fuel bb x idx hpos hidx hblks
    have hlt : idx < bb.blocks.length := BlockedBloom.block_idx_lt hidx hpos
    have hget := List.getElem?_eq_getElem hlt
    have hmem : bb.blocks[idx] ∈ bb.blocks := List.getElem?_mem hget
    obtain ⟨hbpos, hblen, hbhash⟩ := hblks _ hmem
    obtain ⟨ixs, hixs⟩ := Option.isSome_iff_exists.mp hbhash
    refine ⟨hlt, ?_, ?_⟩
    · unfold BlockedBloom.set
      rw [hidx, Option.some_bind, hget, Option.some_bind]
      obtain ⟨blk1, hblk1⟩ := StandardBloom.set_isSome hixs hbpos hblen
      rw [hblk1]; rfl
    · unfold BlockedBloom.get
      rw [hidx, Option.some_bind, hget, Option.some_bind]
      exact StandardBloom.get_isSome_sb hixs hbpos hblen

/-- C6 (witness): the standard-filter statement applied to a width-2
filter whose single hash index is 1. -/
theorem claim_indices_in_range_witness :
    (∀ ix ∈ [1], ix < (⟨1, 5, 5, ⟨2, [0]⟩, 1⟩ : StandardBloom).bits.bits) ∧
    (StandardBloom.set natHasher 0 ⟨1, 5, 5, ⟨2, [0]⟩, 1⟩ (fun v => v)).isSome ∧
    (StandardBloom.get natHasher 0 ⟨1, 5, 5, ⟨2, [0]⟩, 1⟩ (fun v => v)).isSome :=
  claim_indices_in_range.1 ℕ natHasher 0 ⟨1, 5, 5, ⟨2, [0]⟩, 1⟩ (fun v => v) [1]
    (by decide) (by decide) (by decide)
